import Mathlib

/-!
Verification of the Delaunay triangulation engine in `src/lib.rs` of
delaunator-rs.

The Rust code computes over `f64`.  We embed `f64` as the type `F` below:
exact rational arithmetic for finite values, plus `inf`, `neginf` and `nan`
propagated by the IEEE-754 rules for the non-finite cases (negative zero is
identified with zero, and finite arithmetic is exact rather than rounded).
On the concrete small-integer inputs evaluated below every intermediate
result of the Rust program is exactly representable, so the embedding agrees
with the code there; universally quantified statements are statements about
this idealized arithmetic.

All loops of the source are embedded as structurally recursive functions;
loops whose termination measure is not syntactic take an explicit fuel
argument, and the call sites pass a fuel that is proved (or evaluated) to be
sufficient.
-/

namespace DRS

/-- Rational addition written with `Rat.divInt` over numerators and
denominators: unlike the built-in `Rat` arithmetic, this reduces inside the
kernel.  `qadd_eq` identifies it with the field addition of `ℚ`. -/
def qadd (a b : ℚ) : ℚ :=
  Rat.divInt (a.num * b.den + b.num * a.den) (a.den * b.den)

/-- Kernel-computable rational negation; see `qneg_eq`. -/
def qneg (a : ℚ) : ℚ := Rat.divInt (-a.num) a.den

/-- Kernel-computable rational multiplication; see `qmul_eq`. -/
def qmul (a b : ℚ) : ℚ := Rat.divInt (a.num * b.num) (a.den * b.den)

/-- Kernel-computable rational division; see `qdiv_eq`. -/
def qdiv (a b : ℚ) : ℚ := Rat.divInt (a.num * b.den) (a.den * b.num)

/-- Kernel-computable rational absolute value; see `qabs_eq`. -/
def qabs (a : ℚ) : ℚ := Rat.divInt |a.num| a.den

/-- Embedded `f64` value: a finite rational, an infinity, or NaN. -/
inductive F : Type where
  | fin (q : ℚ)
  | inf
  | neginf
  | nan
deriving DecidableEq

namespace F

/-- IEEE addition on the embedding (finite part exact). -/
def add : F → F → F
  | nan, _ => nan
  | _, nan => nan
  | inf, neginf => nan
  | neginf, inf => nan
  | inf, _ => inf
  | _, inf => inf
  | neginf, _ => neginf
  | _, neginf => neginf
  | fin a, fin b => fin (qadd a b)

/-- IEEE negation on the embedding. -/
def neg : F → F
  | nan => nan
  | inf => neginf
  | neginf => inf
  | fin a => fin (qneg a)

/-- IEEE subtraction on the embedding. -/
def sub (a b : F) : F := add a (neg b)

/-- Sign of an embedded value: 1, -1 or 0 (nan has no sign; callers match). -/
def sgn : F → ℤ
  | nan => 0
  | inf => 1
  | neginf => -1
  | fin a => if 0 < a then 1 else if a < 0 then -1 else 0

/-- IEEE multiplication on the embedding (zero times infinity is NaN). -/
def mul : F → F → F
  | nan, _ => nan
  | _, nan => nan
  | fin a, fin b => fin (qmul a b)
  | inf, b => if sgn b = 1 then inf else if sgn b = -1 then neginf else nan
  | neginf, b => if sgn b = 1 then neginf else if sgn b = -1 then inf else nan
  | a, inf => if sgn a = 1 then inf else if sgn a = -1 then neginf else nan
  | a, neginf => if sgn a = 1 then neginf else if sgn a = -1 then inf else nan

/-- IEEE division on the embedding.  A nonzero finite value divided by zero
gives a signed infinity (the embedding has no negative zero, so the sign is
that of the numerator, matching `x / +0.0`). -/
def div : F → F → F
  | nan, _ => nan
  | _, nan => nan
  | inf, inf => nan
  | inf, neginf => nan
  | neginf, inf => nan
  | neginf, neginf => nan
  | inf, fin b => if b < 0 then neginf else inf
  | neginf, fin b => if b < 0 then inf else neginf
  | fin _, inf => fin 0
  | fin _, neginf => fin 0
  | fin a, fin b =>
      if b = 0 then (if a = 0 then nan else if 0 < a then inf else neginf)
      else fin (qdiv a b)

/-- IEEE strict less-than (false whenever either side is NaN). -/
def lt : F → F → Bool
  | nan, _ => false
  | _, nan => false
  | neginf, neginf => false
  | neginf, _ => true
  | _, neginf => false
  | inf, _ => false
  | fin _, inf => true
  | fin a, fin b => decide (a < b)

/-- IEEE less-or-equal (false whenever either side is NaN). -/
def le : F → F → Bool
  | nan, _ => false
  | _, nan => false
  | neginf, _ => true
  | inf, inf => true
  | inf, _ => false
  | fin _, inf => true
  | fin _, neginf => false
  | fin a, fin b => decide (a ≤ b)

/-- IEEE absolute value on the embedding. -/
def fabs : F → F
  | nan => nan
  | inf => inf
  | neginf => inf
  | fin a => fin (qabs a)

/-- The `f64::is_finite` test. -/
def isFinite : F → Bool
  | fin _ => true
  | _ => false

/-- The Rust cast `as usize` applied to the floor of an embedded value
(saturating: NaN and negative values to 0, infinity to `usize::MAX`); the
floor of `a` is `a.num.fdiv a.den`, written with `Int.fdiv` so that it
reduces inside the kernel. -/
def toUsize : F → ℕ
  | nan => 0
  | neginf => 0
  | inf => 2 ^ 64 - 1
  | fin a => (Int.fdiv a.num a.den).toNat

instance : Add F := ⟨add⟩
instance : Sub F := ⟨sub⟩
instance : Mul F := ⟨mul⟩
instance : Div F := ⟨div⟩
instance : Neg F := ⟨neg⟩

end F

/-- The constant `EPSILON = 2.220446049250313e-16 = 2 ^ (-52)` (lib.rs:32). -/
def EPSILON : F := F.fin (mkRat 1 (2 ^ 52))

/-- Fixed legalization stack capacity `EDGE_STACK_SIZE = 512` (lib.rs:34). -/
def EDGE_STACK_SIZE : ℕ := 512

/-- `pseudo_angle` (lib.rs:766-777): monotone proxy for the polar angle. -/
def pseudo_angle (dx dy : F) : F :=
  let denom := F.fabs dx + F.fabs dy
  if F.lt denom (EPSILON * F.fin 10) then F.fin 0
  else
    let p := dx / denom
    let result := if F.lt (F.fin 0) dy then F.fin 3 - p else F.fin 1 + p
    result / F.fin 4

/-- `dist` (lib.rs:783-788): squared Euclidean distance. -/
def dist (ax ay bx by' : F) : F :=
  let dx := ax - bx
  let dy := ay - by'
  dx * dx + dy * dy

/-- `in_circle` (lib.rs:792-808): true iff p is strictly inside the
circumcircle of (a, b, c), computed as the sign of the 3x3 determinant. -/
def in_circle (ax ay bx by' cx cy px py : F) : Bool :=
  let dx := ax - px
  let dy := ay - py
  let ex := bx - px
  let ey := by' - py
  let fx := cx - px
  let fy := cy - py
  let ap := dx * dx + dy * dy
  let bp := ex * ex + ey * ey
  let cp := fx * fx + fy * fy
  let det := dx * (ey * cp - bp * fy) - dy * (ex * cp - bp * fx) +
      ap * (ex * fy - ey * fx)
  F.lt det (F.fin 0)

/-- `orient2d` (lib.rs:814-817): orientation of three points. -/
def orient2d (px py qx qy rx ry : F) : F :=
  (qy - py) * (rx - qx) - (qx - px) * (ry - qy)

/-- `circumradius` (lib.rs:820-834): squared circumradius (infinite or NaN
when the three points are collinear, via the zero denominator). -/
def circumradius (ax ay bx by' cx cy : F) : F :=
  let dx := bx - ax
  let dy := by' - ay
  let ex := cx - ax
  let ey := cy - ay
  let bl := dx * dx + dy * dy
  let cl := ex * ex + ey * ey
  let d := F.fin (mkRat 1 2) / (dx * ey - dy * ex)
  let x := (ey * bl - dy * cl) * d
  let y := (dx * cl - ex * bl) * d
  x * x + y * y

/-- `circumcenter` (lib.rs:840-854). -/
def circumcenter (ax ay bx by' cx cy : F) : F × F :=
  let dx := bx - ax
  let dy := by' - ay
  let ex := cx - ax
  let ey := cy - ay
  let bl := dx * dx + dy * dy
  let cl := ex * ex + ey * ey
  let d := F.fin (mkRat 1 2) / (dx * ey - dy * ex)
  let x := ax + (ey * bl - dy * cl) * d
  let y := ay + (dx * cl - ex * bl) * d
  (x, y)

/-- `swap` (lib.rs:933-937): exchange two entries of an index array. -/
def swap (arr : List ℕ) (i j : ℕ) : List ℕ :=
  let temp := arr.getD i 0
  let arr := arr.set i (arr.getD j 0)
  arr.set j temp

/-- Inner loop of the insertion sort in `quicksort` (lib.rs:871-874): shift
larger keys right; returns the final hole position `j` and the shifted array.
Structural recursion on `j - left` via the fuel `j`. -/
def insSortShift (dists : List F) (left : ℕ) (tempDist : F) :
    ℕ → List ℕ → ℕ × List ℕ
  | 0, ids => (0, ids)
  | j + 1, ids =>
      if left < j + 1 ∧
          F.lt tempDist (dists.getD (ids.getD j 0) (F.fin 0)) then
        insSortShift dists left tempDist j (ids.set (j + 1) (ids.getD j 0))
      else (j + 1, ids)

/-- Outer loop of the insertion sort in `quicksort` (lib.rs:867-876),
iterating `i` over `left+1 ..= right`; `count` counts the remaining values
of `i`. -/
def insSortLoop (dists : List F) (left : ℕ) :
    ℕ → ℕ → List ℕ → List ℕ
  | _, 0, ids => ids
  | i, count + 1, ids =>
      let temp := ids.getD i 0
      let tempDist := dists.getD temp (F.fin 0)
      let sh := insSortShift dists left tempDist i ids
      insSortLoop dists left (i + 1) count (sh.2.set sh.1 temp)

/-- The `i += 1` scan of the Hoare partition (lib.rs:900-905): smallest
`i' > i` with `i' ≥ right` or `dists[ids[i']] ≥ temp_dist`.  Fuel is
`right - i`. -/
def scanI (dists : List F) (right : ℕ) (tempDist : F) :
    ℕ → ℕ → List ℕ → ℕ
  | 0, i, _ => i + 1
  | fuel + 1, i, ids =>
      let i := i + 1
      if right ≤ i ∨ F.le tempDist (dists.getD (ids.getD i 0) (F.fin 0)) then i
      else scanI dists right tempDist fuel i ids

/-- The `j -= 1` scan of the Hoare partition (lib.rs:906-911): largest
`j' < j` with `j' ≤ left` or `dists[ids[j']] ≤ temp_dist`.  Fuel is `j`. -/
def scanJ (dists : List F) (left : ℕ) (tempDist : F) :
    ℕ → ℕ → List ℕ → ℕ
  | 0, j, _ => j - 1
  | fuel + 1, j, ids =>
      let j := j - 1
      if j ≤ left ∨ F.le (dists.getD (ids.getD j 0) (F.fin 0)) tempDist then j
      else scanJ dists left tempDist fuel j ids

/-- The `while running` partition loop (lib.rs:898-917).  Each iteration
strictly shrinks `j - i`, which bounds the fuel. -/
def partitionLoop (dists : List F) (left right : ℕ) (tempDist : F) :
    ℕ → ℕ → ℕ → List ℕ → ℕ × ℕ × List ℕ
  | 0, i, j, ids => (i, j, ids)
  | fuel + 1, i, j, ids =>
      let i := scanI dists right tempDist (right - i) i ids
      let j := scanJ dists left tempDist j j ids
      if j < i then (i, j, ids)
      else partitionLoop dists left right tempDist fuel i j (swap ids i j)

/-- Key read `dists[ids[k]]` used throughout `quicksort`. -/
def keyAt (ids : List ℕ) (dists : List F) (k : ℕ) : F :=
  dists.getD (ids.getD k 0) (F.fin 0)

/-- `quicksort` (lib.rs:860-930): indirect sort of `ids[left..=right]` by the
keys `dists`; insertion sort for ranges of at most 21 elements, otherwise a
median-of-three Hoare partition with two recursive calls.  The recursion is
embedded with explicit fuel: any fuel at least `right - left` reproduces the
Rust recursion, since each recursive call strictly shrinks the range.  The
key array is threaded through unchanged, mirroring the `&mut` borrow. -/
def quicksort : ℕ → List ℕ → List F → ℕ → ℕ → List ℕ × List F
  | fuel, ids, dists, left, right =>
      if right ≤ left then (ids, dists)
      else if right - left ≤ 20 then
        (insSortLoop dists left (left + 1) (right - left) ids, dists)
      else
        match fuel with
        | 0 => (ids, dists)
        | fuel + 1 =>
            let median := (left + right) / 2
            let i := left + 1
            let j := right
            let ids := swap ids median i
            let ids := if F.lt (keyAt ids dists right) (keyAt ids dists left)
              then swap ids left right else ids
            let ids := if F.lt (keyAt ids dists right) (keyAt ids dists i)
              then swap ids i right else ids
            let ids := if F.lt (keyAt ids dists i) (keyAt ids dists left)
              then swap ids left i else ids
            let temp := ids.getD i 0
            let tempDist := dists.getD temp (F.fin 0)
            let pt := partitionLoop dists left right tempDist (right - left) i j ids
            let i := pt.1
            let j := pt.2.1
            let ids := pt.2.2
            let ids := ids.set (left + 1) (ids.getD j 0)
            let ids := ids.set j temp
            if j - left ≤ right - i + 1 then
              let q1 := quicksort fuel ids dists i right
              quicksort fuel q1.1 q1.2 left (j - 1)
            else
              let q1 := quicksort fuel ids dists left (j - 1)
              quicksort fuel q1.1 q1.2 i right

/-- The triangulation state (lib.rs:42-66).  Vectors are embedded as lists;
out-of-range reads return a default (the Rust code would panic there) and
out-of-range writes are dropped. -/
structure Delaunator where
  coords : List F
  triangles : List ℕ
  halfedges : List ℤ
  hull : List ℕ
  triangles_len : ℕ
  hull_start : ℕ
  hash_size : ℕ
  hull_prev : List ℕ
  hull_next : List ℕ
  hull_tri : List ℕ
  hull_hash : List ℤ
  ids : List ℕ
  dists : List F
  cx : F
  cy : F
deriving DecidableEq

/-- Read `coords[2 * i]`. -/
def coordx (s : Delaunator) (i : ℕ) : F := s.coords.getD (2 * i) F.nan

/-- Read `coords[2 * i + 1]`. -/
def coordy (s : Delaunator) (i : ℕ) : F := s.coords.getD (2 * i + 1) F.nan

/-- `hash_key` (lib.rs:630-635). -/
def hash_key (s : Delaunator) (x y : F) : ℕ :=
  let dx := x - s.cx
  let dy := y - s.cy
  let p := F.toUsize (pseudo_angle dx dy * F.fin (mkRat (s.hash_size : ℤ) 1))
  p % s.hash_size

/-- `link` (lib.rs:655-660). -/
def link (s : Delaunator) (a : ℕ) (b : ℤ) : Delaunator :=
  let s1 := { s with halfedges := s.halfedges.set a b }
  if b ≠ -1 then { s1 with halfedges := s1.halfedges.set b.toNat (a : ℤ) }
  else s1

/-- `add_triangle` (lib.rs:638-652). -/
def add_triangle (s : Delaunator) (i0 i1 i2 : ℕ) (a b c : ℤ) :
    Delaunator × ℕ :=
  let t := s.triangles_len
  let s :=
    { s with triangles := ((s.triangles.set t i0).set (t + 1) i1).set (t + 2) i2 }
  let s := link s t a
  let s := link s (t + 1) b
  let s := link s (t + 2) c
  ({ s with triangles_len := t + 3 }, t)

/-- The hull-edge repair walk inside the flip branch of `legalize`
(lib.rs:717-729); bounded by one full hull traversal. -/
def hullTriFixLoop (bl ar : ℕ) : ℕ → Delaunator → ℕ → Delaunator
  | 0, s, _ => s
  | fuel + 1, s, e =>
      if s.hull_tri.getD e 0 = bl then
        { s with hull_tri := s.hull_tri.set e ar }
      else
        let e2 := s.hull_prev.getD e 0
        if e2 = s.hull_start then s else hullTriFixLoop bl ar fuel s e2

/-- Fuel passed to `legalize`.  The `pl = pr` defect recorded at C1 makes
every `in_circle` test of the loop false, so the loop returns after one
iteration and any positive fuel gives the same result. -/
def LEGALIZE_FUEL : ℕ := 2 ^ 32

/-- The loop body of `legalize` (lib.rs:663-751) with its explicit edge
stack (capacity `EDGE_STACK_SIZE`), embedded with fuel. -/
def legalizeLoop : ℕ → Delaunator → List ℕ → ℕ → Delaunator × ℕ
  | 0, s, _, a => (s, a)
  | fuel + 1, s, stack, a =>
      let b := s.halfedges.getD a (-1)
      let a0 := (a / 3) * 3
      let ar := a0 + (a + 2) % 3
      if b = -1 then
        match stack with
        | [] => (s, ar)
        | top :: rest => legalizeLoop fuel s rest top
      else
        let bn := b.toNat
        let b0 := (bn / 3) * 3
        let al := a0 + (ar + 1) % 3
        let bl := b0 + (bn + 2) % 3
        let p0 := s.triangles.getD ar 0
        let pr := s.triangles.getD (a0 + (ar + 1) % 3) 0
        let pl := s.triangles.getD al 0
        let p1 := s.triangles.getD bl 0
        let illegal := in_circle (coordx s p0) (coordy s p0)
            (coordx s pr) (coordy s pr) (coordx s pl) (coordy s pl)
            (coordx s p1) (coordy s p1)
        if illegal then
          let s := { s with triangles := (s.triangles.set ar p1).set bn p0 }
          let hbl := s.halfedges.getD bl (-1)
          let s :=
            if hbl = -1 then
              hullTriFixLoop bl ar (s.hull_prev.length + 1) s s.hull_start
            else s
          let s := link s ar hbl
          let s := link s bn (s.halfedges.getD ar (-1))
          let s := link s ar (bl : ℤ)
          let br := b0 + (bn + 1) % 3
          let stack :=
            if stack.length < EDGE_STACK_SIZE then br :: stack else stack
          legalizeLoop fuel s stack ar
        else
          match stack with
          | [] => (s, ar)
          | top :: rest => legalizeLoop fuel s rest top

/-- `legalize` (lib.rs:663-751). -/
def legalize (s : Delaunator) (a : ℕ) : Delaunator × ℕ :=
  legalizeLoop LEGALIZE_FUEL s [] a

/-- The `ids` initialization loop of `update` (lib.rs:227-229). -/
def initIds (s : Delaunator) (n : ℕ) : Delaunator :=
  (List.range n).foldl (fun s i => { s with ids := s.ids.set i i }) s

/-- The bounding-box fold of `update` (lib.rs:232-252); the accumulator is
`(min_x, min_y, max_x, max_y)`. -/
def bboxFold (coords : List F) (n : ℕ) : F × F × F × F :=
  (List.range n).foldl
    (fun acc i =>
      let x := coords.getD (2 * i) F.nan
      let y := coords.getD (2 * i + 1) F.nan
      let mx := if F.lt x acc.1 then x else acc.1
      let my := if F.lt y acc.2.1 then y else acc.2.1
      let Mx := if F.lt acc.2.2.1 x then x else acc.2.2.1
      let My := if F.lt acc.2.2.2 y then y else acc.2.2.2
      (mx, my, Mx, My))
    (F.inf, F.inf, F.neginf, F.neginf)

/-- Selection of the seed point `i0` closest to the box center
(lib.rs:258-268). -/
def find_i0 (coords : List F) (n : ℕ) (cx cy : F) : ℕ :=
  ((List.range n).foldl
    (fun acc i =>
      let d := dist cx cy (coords.getD (2 * i) F.nan)
          (coords.getD (2 * i + 1) F.nan)
      if F.lt d acc.2 then (i, d) else acc)
    (0, F.inf)).1

/-- Selection of the second seed point `i1` (lib.rs:274-286). -/
def find_i1 (coords : List F) (n i0 : ℕ) (i0x i0y : F) : ℕ :=
  ((List.range n).foldl
    (fun acc i =>
      if i = i0 then acc
      else
        let d := dist i0x i0y (coords.getD (2 * i) F.nan)
            (coords.getD (2 * i + 1) F.nan)
        if F.lt d acc.2 ∧ F.lt (F.fin 0) d then (i, d) else acc)
    (0, F.inf)).1

/-- Selection of the third seed point `i2` and the minimal circumradius
(lib.rs:292-311). -/
def find_i2 (coords : List F) (n i0 i1 : ℕ) (i0x i0y i1x i1y : F) : ℕ × F :=
  (List.range n).foldl
    (fun acc i =>
      if i = i0 ∨ i = i1 then acc
      else
        let r := circumradius i0x i0y i1x i1y (coords.getD (2 * i) F.nan)
            (coords.getD (2 * i + 1) F.nan)
        if F.lt r acc.2 then (i, r) else acc)
    (0, F.inf)

/-- The collinear-case key loop (lib.rs:319-324). -/
def collinearDists (s : Delaunator) (n : ℕ) : Delaunator :=
  (List.range n).foldl
    (fun s i =>
      let d := s.coords.getD (2 * i) F.nan - s.coords.getD 0 F.nan
      let d := if d = F.fin 0
        then s.coords.getD (2 * i + 1) F.nan - s.coords.getD 1 F.nan else d
      { s with dists := s.dists.set i d })
    s

/-- The collinear-case hull fold (lib.rs:328-339): keep an id whenever its
key strictly exceeds the last kept key. -/
def collinearHull (ids : List ℕ) (dists : List F) (n : ℕ) : List ℕ :=
  ((List.range n).foldl
    (fun acc i =>
      let id := ids.getD i 0
      let d := dists.getD id (F.fin 0)
      if F.lt acc.2 d then (acc.1 ++ [id], d) else acc)
    (([] : List ℕ), F.neginf)).1

/-- The radial key loop (lib.rs:362-369). -/
def radialDists (s : Delaunator) (n : ℕ) (ccx ccy : F) : Delaunator :=
  (List.range n).foldl
    (fun s i =>
      let d := dist (s.coords.getD (2 * i) F.nan)
          (s.coords.getD (2 * i + 1) F.nan) ccx ccy
      { s with dists := s.dists.set i d })
    s

/-- The hash reset loop (lib.rs:389-391). -/
def resetHash (s : Delaunator) : Delaunator :=
  (List.range s.hash_size).foldl
    (fun s i => { s with hull_hash := s.hull_hash.set i (-1) }) s

/-- The hash probe loop (lib.rs:433-439): scan buckets from `key`, stopping
at the first entry that is neither empty nor a removed (self-looped) vertex;
as in the source, the last scanned entry is kept if no bucket qualifies.
`count` is the number of buckets still to scan. -/
def probeLoop (s : Delaunator) (key : ℕ) : ℕ → ℕ → ℤ
  | 0, _ => 0
  | count + 1, j =>
      let idx := (key + j) % s.hash_size
      let start := s.hull_hash.getD idx (-1)
      if start ≠ -1 ∧ start ≠ (s.hull_next.getD start.toNat 0 : ℤ) then start
      else if count = 0 then start
      else probeLoop s key count (j + 1)

/-- The visible-edge walk (lib.rs:446-465): advance while the point does not
strictly see the edge; `-1` when the walk returns to its start (the point is
not visible from the hull).  The call site passes fuel `n + 1`, one more than
the largest possible ring; exhaustion (unreachable from reachable states)
also yields `-1`, i.e. the point is skipped. -/
def visWalk (s : Delaunator) (x y : F) (start : ℕ) : ℕ → ℕ → ℤ
  | 0, _ => -1
  | fuel + 1, e =>
      let q := s.hull_next.getD e 0
      if F.le (F.fin 0) (orient2d x y (coordx s e) (coordy s e)
          (coordx s q) (coordy s q)) then
        if q = start then (-1 : ℤ) else visWalk s x y start fuel q
      else (e : ℤ)

/-- The forward hull walk (lib.rs:488-515); the accumulator carries the
state, the walking vertex `n` and `hull_size`. -/
def fwdWalk (x y : F) (i : ℕ) : ℕ → Delaunator → ℕ → ℕ → Delaunator × ℕ × ℕ
  | 0, s, n, hullSize => (s, n, hullSize)
  | fuel + 1, s, n, hullSize =>
      let q := s.hull_next.getD n 0
      if F.lt (orient2d x y (coordx s n) (coordy s n)
          (coordx s q) (coordy s q)) (F.fin 0) then
        let p := add_triangle s n i q (s.hull_tri.getD i 0 : ℤ) (-1)
            (s.hull_tri.getD n 0 : ℤ)
        let r := legalize p.1 (p.2 + 2)
        let s := { r.1 with hull_tri := r.1.hull_tri.set i r.2 }
        let s := { s with hull_next := s.hull_next.set n n }
        fwdWalk x y i fuel s q (hullSize - 1)
      else (s, n, hullSize)

/-- The backward hull walk (lib.rs:518-547). -/
def bwdWalk (x y : F) (i : ℕ) : ℕ → Delaunator → ℕ → ℕ → Delaunator × ℕ × ℕ
  | 0, s, e, hullSize => (s, e, hullSize)
  | fuel + 1, s, e, hullSize =>
      let q := s.hull_prev.getD e 0
      if F.lt (orient2d x y (coordx s q) (coordy s q)
          (coordx s e) (coordy s e)) (F.fin 0) then
        let p := add_triangle s q i e (-1) (s.hull_tri.getD e 0 : ℤ)
            (s.hull_tri.getD q 0 : ℤ)
        let r := legalize p.1 (p.2 + 2)
        let s := { r.1 with hull_tri := r.1.hull_tri.set q p.2 }
        let s := { s with hull_next := s.hull_next.set e e }
        bwdWalk x y i fuel s q (hullSize - 1)
      else (s, e, hullSize)

/-- One iteration of the insertion loop of `update` (lib.rs:412-565).  The
accumulator carries the state, `hull_size`, and the previous point
`(xp, yp)`. -/
def insertPoint (n i0 i1 i2 : ℕ) (acc : Delaunator × ℕ × F × F) (k : ℕ) :
    Delaunator × ℕ × F × F :=
  let s := acc.1
  let hullSize := acc.2.1
  let xp := acc.2.2.1
  let yp := acc.2.2.2
  let i := s.ids.getD k 0
  let x := coordx s i
  let y := coordy s i
  if 0 < k ∧ F.le (F.fabs (x - xp)) EPSILON = true ∧
      F.le (F.fabs (y - yp)) EPSILON = true then acc
  else
    let xp := x
    let yp := y
    if i = i0 ∨ i = i1 ∨ i = i2 then (s, hullSize, xp, yp)
    else
      let key := hash_key s x y
      let start0 : ℤ := probeLoop s key s.hash_size 0
      let start := s.hull_prev.getD start0.toNat 0
      let e0 : ℤ := visWalk s x y start (n + 1) start
      if e0 = -1 then (s, hullSize, xp, yp)
      else
        let e := e0.toNat
        let p := add_triangle s e i (s.hull_next.getD e 0) (-1) (-1)
            (s.hull_tri.getD e 0 : ℤ)
        let r := legalize p.1 (p.2 + 2)
        let s := { r.1 with hull_tri := r.1.hull_tri.set i r.2 }
        let s := { s with hull_tri := s.hull_tri.set e p.2 }
        let hullSize := hullSize + 1
        let n1 := s.hull_next.getD e 0
        let w := fwdWalk x y i (n + 1) s n1 hullSize
        let s := w.1
        let nf := w.2.1
        let hullSize := w.2.2
        let w2 := if e = start then bwdWalk x y i (n + 1) s e hullSize
          else (s, e, hullSize)
        let s := w2.1
        let e := w2.2.1
        let hullSize := w2.2.2
        let s := { s with hull_start := e }
        let s := { s with hull_prev := s.hull_prev.set i e }
        let s := { s with hull_next := s.hull_next.set e i }
        let s := { s with hull_prev := s.hull_prev.set nf i }
        let s := { s with hull_next := s.hull_next.set i nf }
        let key_xy := hash_key s x y
        let key_e := hash_key s (coordx s e) (coordy s e)
        let s := { s with hull_hash := s.hull_hash.set key_xy (i : ℤ) }
        let s := { s with hull_hash := s.hull_hash.set key_e (e : ℤ) }
        (s, hullSize, xp, yp)

/-- The final hull extraction walk (lib.rs:568-573). -/
def extractLoop (s : Delaunator) : ℕ → ℕ → List ℕ
  | _, 0 => []
  | e, count + 1 => e :: extractLoop s (s.hull_next.getD e 0) count

/-- The collinear fallback branch of `update` (lib.rs:317-345). -/
def collinearCase (s : Delaunator) (n : ℕ) : Delaunator :=
  let s := collinearDists s n
  let q := quicksort n s.ids s.dists 0 (n - 1)
  let s := { s with ids := q.1, dists := q.2 }
  let hull := collinearHull s.ids s.dists n
  { s with hull := hull, triangles := [], halfedges := [] }

/-- Seed hull ring setup of `update` (lib.rs:374-386), after the
counterclockwise swap. -/
def seedRing (s : Delaunator) (i0 i1 i2 : ℕ) : Delaunator :=
  let s := { s with hull_start := i0 }
  let s := { s with hull_next := s.hull_next.set i0 i1 }
  let s := { s with hull_prev := s.hull_prev.set i2 i1 }
  let s := { s with hull_next := s.hull_next.set i1 i2 }
  let s := { s with hull_prev := s.hull_prev.set i0 i2 }
  let s := { s with hull_next := s.hull_next.set i2 i0 }
  let s := { s with hull_prev := s.hull_prev.set i1 i0 }
  let s := { s with hull_tri := s.hull_tri.set i0 0 }
  let s := { s with hull_tri := s.hull_tri.set i1 1 }
  { s with hull_tri := s.hull_tri.set i2 2 }

/-- Seed hash setup of `update` (lib.rs:389-400). -/
def seedHash (s : Delaunator) (i0 i1 i2 : ℕ) (i0x i0y i1x i1y i2x i2y : F) :
    Delaunator :=
  let s := resetHash s
  let key_i0 := hash_key s i0x i0y
  let key_i1 := hash_key s i1x i1y
  let key_i2 := hash_key s i2x i2y
  let s := { s with hull_hash := s.hull_hash.set key_i0 (i0 : ℤ) }
  let s := { s with hull_hash := s.hull_hash.set key_i1 (i1 : ℤ) }
  { s with hull_hash := s.hull_hash.set key_i2 (i2 : ℤ) }

/-- Hull extraction and array truncation of `update` (lib.rs:567-577). -/
def finalize (s : Delaunator) (hullSize : ℕ) : Delaunator :=
  let hull := extractLoop s s.hull_start hullSize
  { s with hull := hull,
           triangles := s.triangles.take s.triangles_len,
           halfedges := s.halfedges.take s.triangles_len }

/-- The main triangulation branch of `update` (lib.rs:356-577); `i1`, `i2`
and their coordinates arrive already swapped to counterclockwise order
(lib.rs:348-354). -/
def mainCase (s : Delaunator) (n i0 i1 i2 : ℕ)
    (i0x i0y i1x i1y i2x i2y : F) : Delaunator :=
  let center := circumcenter i0x i0y i1x i1y i2x i2y
  let s := { s with cx := center.1, cy := center.2 }
  let s := radialDists s n center.1 center.2
  let q := quicksort n s.ids s.dists 0 (n - 1)
  let s := { s with ids := q.1, dists := q.2 }
  let s := seedRing s i0 i1 i2
  let s := seedHash s i0 i1 i2 i0x i0y i1x i1y i2x i2y
  let s := { s with triangles_len := 0 }
  let p := add_triangle s i0 i1 i2 (-1) (-1) (-1)
  let res := (List.range p.1.ids.length).foldl (insertPoint n i0 i1 i2)
      (p.1, 3, F.fin 0, F.fin 0)
  finalize res.1 res.2.1

/-- `update` (lib.rs:215-578). -/
def update (s : Delaunator) : Delaunator :=
  let n := s.coords.length / 2
  if n < 3 then
    { s with triangles := [], halfedges := [], hull := List.range n }
  else
    let s := initIds s n
    let bb := bboxFold s.coords n
    let cx := (bb.1 + bb.2.2.1) * F.fin (mkRat 1 2)
    let cy := (bb.2.1 + bb.2.2.2) * F.fin (mkRat 1 2)
    let i0 := find_i0 s.coords n cx cy
    let i0x := coordx s i0
    let i0y := coordy s i0
    let i1 := find_i1 s.coords n i0 i0x i0y
    let i1x := coordx s i1
    let i1y := coordy s i1
    let p2 := find_i2 s.coords n i0 i1 i0x i0y i1x i1y
    let i2x := coordx s p2.1
    let i2y := coordy s p2.1
    if p2.2 = F.inf then collinearCase s n
    else if F.lt (orient2d i0x i0y i1x i1y i2x i2y) (F.fin 0) then
      mainCase s n i0 p2.1 i1 i0x i0y i2x i2y i1x i1y
    else mainCase s n i0 i1 p2.1 i0x i0y i1x i1y i2x i2y

/-- Doubling worker for `nextPowerOfTwo`; the fuel 64 matches the `usize`
width. -/
def nextPow2Go (n : ℕ) : ℕ → ℕ → ℕ
  | 0, p => p
  | fuel + 1, p => if n ≤ p then p else nextPow2Go n fuel (2 * p)

/-- `usize::next_power_of_two` (used at lib.rs:92): the least power of two
that is at least `n`. -/
def nextPowerOfTwo (n : ℕ) : ℕ := nextPow2Go n 64 1

/-- Wrapping `usize` subtraction (release-mode semantics of `a - b`). -/
def usizeSub (a b : ℕ) : ℕ := ((a + 2 ^ 64) - b) % 2 ^ 64

/-- The freshly allocated state built by the constructor (lib.rs:94-111). -/
def mkDelaunator (coords : List F) (n maxTriangles hashSize : ℕ) :
    Delaunator where
  coords := coords
  triangles := List.replicate (maxTriangles * 3) 0
  halfedges := List.replicate (maxTriangles * 3) (-1)
  hull := []
  triangles_len := 0
  hull_start := 0
  hash_size := hashSize
  hull_prev := List.replicate n 0
  hull_next := List.replicate n 0
  hull_tri := List.replicate n 0
  hull_hash := List.replicate hashSize (-1)
  ids := List.replicate n 0
  dists := List.replicate n (F.fin 0)
  cx := F.fin 0
  cy := F.fin 0

/-- Observable outcome of `Delaunator::new`: a returned error, a panic (or
allocation abort), or a constructed instance. -/
inductive NewResult where
  | err (msg : String)
  | panicked
  | ok (d : Delaunator)
deriving DecidableEq

/-- `Delaunator::new` (lib.rs:75-115).  The expression `2 * n - 5` is
`usize` arithmetic: for `n < 3` it panics in debug builds and wraps in
release builds, where the wrapped vector length then fails the allocator
capacity check (`4` bytes per element against `isize::MAX`); both outcomes
are modeled as `panicked`. -/
def new (coords : List F) : NewResult :=
  let n := coords.length / 2
  if n = 0 ∨ coords.length % 2 ≠ 0 then .err "Invalid coordinates array"
  else if 0 < n ∧ ¬(coords.getD 0 F.nan).isFinite then
    .err "Expected coords to contain numbers"
  else
    let mt := max (usizeSub (2 * n) 5) 0
    let len3 := (mt * 3) % 2 ^ 64
    if 2 * n < 5 ∨ 2 ^ 63 ≤ len3 * 4 then .panicked
    else .ok (update (mkDelaunator coords n mt (nextPowerOfTwo n / 2)))

/-- Successor half-edge within its triangle (spec section 4.3). -/
def nextEdge (e : ℕ) : ℕ := (e / 3) * 3 + (e + 1) % 3

/-- Predecessor half-edge within its triangle (spec section 4.3). -/
def prevEdge (e : ℕ) : ℕ := (e / 3) * 3 + (e + 2) % 3

/-- The empty-circumcircle condition of spec sections 3 (invariant 6) and 8
(invariant 3) at one half-edge: for an internal edge `e` (twin `≥ 0`) the
directed edge runs from `triangles[e]` to `triangles[nextEdge e]`, its
triangle is `(a, b, c)`, the twin triangle is `(b, a, d)`, and `d` must not
lie strictly inside the circumcircle of `(a, b, c)`.  Hull edges pass
vacuously. -/
def delaunayEdgeOK (s : Delaunator) (e : ℕ) : Bool :=
  let h := s.halfedges.getD e (-1)
  if h < 0 then true
  else
    let a := s.triangles.getD e 0
    let b := s.triangles.getD (nextEdge e) 0
    let c := s.triangles.getD (prevEdge e) 0
    let d := s.triangles.getD (prevEdge h.toNat) 0
    !(in_circle (coordx s a) (coordy s a) (coordx s b) (coordy s b)
        (coordx s c) (coordy s c) (coordx s d) (coordy s d))

/-- Modelled from the spec: the `pseudo_angle` value of spec section 4.1 as
a rational, `(3 - p)/4` for `dy > 0` and `(1 + p)/4` otherwise with
`p = dx / (|dx| + |dy|)`, and `0` below the code's small-denominator cutoff
`10 * 2 ^ (-52)` (the spec's "denominator underflows" case). -/
def pseudoAngleSpec (dx dy : ℚ) : ℚ :=
  let d := |dx| + |dy|
  if d < 10 / 2 ^ 52 then 0
  else if 0 < dy then (3 - dx / d) / 4 else (1 + dx / d) / 4

/-- Five-point input 0:(0,0), 1:(0,1), 2:(0,2), 3:(1,0), 4:(1,2), on which
the triangulation the code produces is not Delaunay. -/
def c1coords : List F :=
  [F.fin 0, F.fin 0, F.fin 0, F.fin 1, F.fin 0, F.fin 2,
   F.fin 1, F.fin 0, F.fin 1, F.fin 2]

/-- The instance `new c1coords` constructs (n = 5, max_triangles = 5,
hash_size = 4) after its `update` run. -/
def c1state : Delaunator := update (mkDelaunator c1coords 5 5 4)

/-- The collinear three-point input [0,0, 1,0, 2,0] of spec section 8. -/
def c6coords : List F :=
  [F.fin 0, F.fin 0, F.fin 1, F.fin 0, F.fin 2, F.fin 0]

/-- The instance `new c6coords` constructs (n = 3, max_triangles = 1,
hash_size = 2) after its `update` run. -/
def c6state : Delaunator := update (mkDelaunator c6coords 3 1 2)

/-- Keys are pairwise ascending on positions `lo..hi` (inclusive). -/
def AscOn (dists : List F) (ids : List ℕ) (lo hi : ℕ) : Prop :=
  ∀ k, lo ≤ k → k + 1 ≤ hi →
    F.le (keyAt ids dists k) (keyAt ids dists (k + 1)) = true

/-- One conditional sentinel swap of the median-of-three preparation:
swap positions `p < q` when the key at `q` is strictly below the key at
`p`. -/
def condSwap (dists : List F) (p q : ℕ) (a : List ℕ) : List ℕ :=
  if F.lt (keyAt a dists q) (keyAt a dists p) then swap a p q else a

/-- The median-of-three preparation of `quicksort` (lib.rs:878-892): move the
median to `left+1`, then order the sentinels at `left`, `left+1`, `right`. -/
def medianPrep (dists : List F) (left right : ℕ) (ids : List ℕ) : List ℕ :=
  condSwap dists left (left + 1)
    (condSwap dists (left + 1) right
      (condSwap dists left right
        (swap ids ((left + right) / 2) (left + 1))))

/-!
Theorems.  First the bridge lemmas identifying the kernel-computable
rational operations with the field operations of `ℚ`, then the claim
theorems.
-/

/-- `qadd` is rational addition. -/
theorem qadd_eq (a b : ℚ) : qadd a b = a + b := by
  have ha : ((a.den : ℚ)) ≠ 0 := by exact_mod_cast a.den_nz
  have hb : ((b.den : ℚ)) ≠ 0 := by exact_mod_cast b.den_nz
  rw [qadd, Rat.divInt_eq_div]
  conv_rhs => rw [← Rat.num_div_den a, ← Rat.num_div_den b]
  push_cast
  field_simp

/-- `qneg` is rational negation. -/
theorem qneg_eq (a : ℚ) : qneg a = -a := by
  rw [qneg, Rat.divInt_eq_div]
  conv_rhs => rw [← Rat.num_div_den a]
  push_cast
  rw [neg_div]

/-- `qmul` is rational multiplication. -/
theorem qmul_eq (a b : ℚ) : qmul a b = a * b := by
  rw [qmul, Rat.divInt_eq_div]
  conv_rhs => rw [← Rat.num_div_den a, ← Rat.num_div_den b]
  push_cast
  rw [div_mul_div_comm]

/-- `qdiv` is rational division (both sides send a zero divisor to 0). -/
theorem qdiv_eq (a b : ℚ) : qdiv a b = a / b := by
  by_cases hb : b = 0
  · subst hb
    rw [qdiv]
    norm_num
  · have ha : ((a.den : ℚ)) ≠ 0 := by exact_mod_cast a.den_nz
    have hbd : ((b.den : ℚ)) ≠ 0 := by exact_mod_cast b.den_nz
    have hbn : ((b.num : ℚ)) ≠ 0 := by exact_mod_cast Rat.num_ne_zero.mpr hb
    rw [qdiv, Rat.divInt_eq_div]
    conv_rhs => rw [← Rat.num_div_den a, ← Rat.num_div_den b]
    push_cast
    field_simp

/-- `qabs` is the rational absolute value. -/
theorem qabs_eq (a : ℚ) : qabs a = |a| := by
  rw [qabs, Rat.divInt_eq_div]
  conv_rhs => rw [← Rat.num_div_den a]
  push_cast
  rw [abs_div]
  congr 1
  exact (abs_of_pos (by exact_mod_cast a.pos)).symm

/-- Addition of finite embedded values is exact. -/
theorem fin_add (a b : ℚ) : F.fin a + F.fin b = F.fin (a + b) := by
  show F.add (F.fin a) (F.fin b) = F.fin (a + b)
  rw [F.add, qadd_eq]

/-- Subtraction of finite embedded values is exact. -/
theorem fin_sub (a b : ℚ) : F.fin a - F.fin b = F.fin (a - b) := by
  show F.sub (F.fin a) (F.fin b) = F.fin (a - b)
  rw [F.sub, F.neg]
  show F.add (F.fin a) (F.fin (qneg b)) = F.fin (a - b)
  rw [F.add, qadd_eq, qneg_eq, sub_eq_add_neg]

/-- Multiplication of finite embedded values is exact. -/
theorem fin_mul (a b : ℚ) : F.fin a * F.fin b = F.fin (a * b) := by
  show F.mul (F.fin a) (F.fin b) = F.fin (a * b)
  rw [F.mul, qmul_eq]

/-- Division of finite embedded values with a nonzero divisor is exact. -/
theorem fin_div (a b : ℚ) (hb : b ≠ 0) : F.fin a / F.fin b = F.fin (a / b) := by
  show F.div (F.fin a) (F.fin b) = F.fin (a / b)
  rw [F.div, if_neg hb, qdiv_eq]

/-- Absolute value of a finite embedded value is exact. -/
theorem fin_fabs (a : ℚ) : F.fabs (F.fin a) = F.fin |a| := by
  rw [F.fabs, qabs_eq]

/-- The embedded strict order on finite values is the rational one. -/
theorem fin_lt (a b : ℚ) : F.lt (F.fin a) (F.fin b) = decide (a < b) := rfl

/-- The embedded non-strict order on finite values is the rational one. -/
theorem fin_le (a b : ℚ) : F.le (F.fin a) (F.fin b) = decide (a ≤ b) := rfl

set_option maxHeartbeats 1000000 in
/-- C1.  The claim states that at termination every internal edge satisfies
the empty-circumcircle property.  The code violates it: in `legalize`
(lib.rs:688-693) the index `al = a0 + (ar + 1) % 3` is computed from the
already rotated `ar`, so `pl` coincides with `pr`, `in_circle` is evaluated
on a degenerate quadrilateral, no edge is ever flipped, and the output is
not Delaunay.  On the five-point input `c1coords`, `new` succeeds and the
internal edge 4 (twin 8), shared by triangles (2,3,1) and (3,2,4), has the
fourth vertex (1,2) strictly inside the circumcircle of (0,2)-(1,0)-(0,1):
`in_circle` is true there and `delaunayEdgeOK` fails. -/
theorem C1_empty_circumcircle_violated :
    new c1coords = NewResult.ok c1state ∧
    c1state.triangles = [1, 3, 0, 1, 2, 3, 2, 4, 3] ∧
    c1state.halfedges.getD 4 (-1) = 8 ∧
    in_circle (F.fin 0) (F.fin 2) (F.fin 1) (F.fin 0) (F.fin 0) (F.fin 1)
      (F.fin 1) (F.fin 2) = true ∧
    delaunayEdgeOK c1state 4 = false := by
  refine ⟨rfl, by decide, by decide, by decide, by decide⟩

/-- C4.  The claim states that `create` succeeds for N = 1 and N = 2 with
empty triangles and hull `0..N`.  The code instead evaluates `2 * n - 5` in
`usize` before `update` can run (lib.rs:89), which underflows for `n < 3`:
a panic in debug builds, and in release builds the wrapped vector length
fails the allocation capacity check.  `update`'s own `n < 3` branch
(lib.rs:219-224), which implements the claimed behavior, is unreachable
through `new`. -/
theorem C4_small_input_panics :
    new [F.fin 0, F.fin 0] = NewResult.panicked ∧
    new [F.fin 0, F.fin 0, F.fin 1, F.fin 1] = NewResult.panicked ∧
    (update (mkDelaunator [F.fin 0, F.fin 0] 1 0 0)).hull = [0] := by
  refine ⟨by decide, by decide, by decide⟩

/-- C9 counterexample.  The claim quantifies over every `(dx, dy)`, but for
the non-finite input `dx = inf, dy = 0` the code returns NaN (`inf / inf`),
which is not in `[0, 1)`. -/
theorem C9_nonfinite_counterexample :
    pseudo_angle F.inf (F.fin 0) = F.nan ∧
    F.le (F.fin 0) (pseudo_angle F.inf (F.fin 0)) = false := by
  exact ⟨by decide, by decide⟩

/-- C9 as amended: for every FINITE pair `(dx, dy)` the code computes the
spec formula `pseudoAngleSpec` — `0` below the small-denominator cutoff
`10 * 2 ^ (-52)`, else `(3 - p)/4` for `dy > 0` and `(1 + p)/4` for
`dy ≤ 0` with `p = dx / (|dx| + |dy|)` — and the result lies in the CLOSED
interval `[0, 1]`, the range the source's own doc comment states
(lib.rs:760).  The closed upper end is deliberate: in binary64 the sum
`|dx| + |dy|` can round down to `|dx|` (for example `dx = -1.0`,
`dy = 2 ^ (-60)`), making `p = -1` and the result exactly `1.0`, so the
half-open range of the original claim is not guaranteed by the program;
only the bound `result ≤ 1` is robust to that rounding, and it is the bound
stated here.  (This theorem evaluates the formula in the embedding's exact
arithmetic; `p` stays in `[-1, 1]` under any monotone rounding, which is
what makes the closed bound rounding-robust.) -/
theorem C9_pseudo_angle_amended (dx dy : ℚ) :
    pseudo_angle (F.fin dx) (F.fin dy) = F.fin (pseudoAngleSpec dx dy) ∧
    0 ≤ pseudoAngleSpec dx dy ∧ pseudoAngleSpec dx dy ≤ 1 := by
  have hthr : EPSILON * F.fin 10 = F.fin (10 / 2 ^ 52) := by
    rw [EPSILON, fin_mul]
    congr 1
    rw [Rat.mkRat_eq_divInt, Rat.divInt_eq_div]
    push_cast
    ring
  have habs : F.fabs (F.fin dx) + F.fabs (F.fin dy) = F.fin (|dx| + |dy|) := by
    rw [fin_fabs, fin_fabs, fin_add]
  by_cases h : |dx| + |dy| < 10 / 2 ^ 52
  · have h1 : pseudo_angle (F.fin dx) (F.fin dy) = F.fin 0 := by
      rw [pseudo_angle]
      simp only [habs, hthr, fin_lt, decide_eq_true_eq]
      rw [if_pos h]
    have h2 : pseudoAngleSpec dx dy = 0 := by
      rw [pseudoAngleSpec]
      simp only [if_pos h]
    rw [h1, h2]
    norm_num
  · have hd0 : (0 : ℚ) < |dx| + |dy| := by
      have h10 : (0 : ℚ) < 10 / 2 ^ 52 := by norm_num
      linarith [not_lt.mp h]
    have hdne : (|dx| + |dy|) ≠ 0 := ne_of_gt hd0
    have hxd : |dx| ≤ |dx| + |dy| := by linarith [abs_nonneg dy]
    have hp1 : dx / (|dx| + |dy|) ≤ 1 :=
      (div_le_one hd0).mpr (le_trans (le_abs_self dx) hxd)
    have hpm1 : -1 ≤ dx / (|dx| + |dy|) := by
      rw [le_div_iff₀ hd0]
      nlinarith [neg_abs_le dx]
    have hps : pseudoAngleSpec dx dy =
        (if 0 < dy then (3 - dx / (|dx| + |dy|)) / 4
         else (1 + dx / (|dx| + |dy|)) / 4) := by
      rw [pseudoAngleSpec]
      simp only [if_neg h]
    have hpa : pseudo_angle (F.fin dx) (F.fin dy) =
        F.fin (pseudoAngleSpec dx dy) := by
      rw [pseudo_angle]
      simp only [habs, hthr, fin_lt, decide_eq_true_eq]
      rw [if_neg h, fin_div _ _ hdne, hps]
      by_cases hdy : 0 < dy
      · simp only [fin_lt, decide_eq_true_eq, if_pos hdy]
        rw [fin_sub, fin_div _ _ (by norm_num : (4 : ℚ) ≠ 0)]
      · simp only [fin_lt, decide_eq_true_eq, if_neg hdy]
        rw [fin_add, fin_div _ _ (by norm_num : (4 : ℚ) ≠ 0)]
    refine ⟨hpa, ?_, ?_⟩ <;> rw [hps] <;> by_cases hdy : 0 < dy
    · rw [if_pos hdy]
      apply div_nonneg _ (by norm_num)
      linarith
    · rw [if_neg hdy]
      apply div_nonneg _ (by norm_num)
      linarith
    · rw [if_pos hdy]
      rw [div_le_one (by norm_num : (0 : ℚ) < 4)]
      linarith
    · rw [if_neg hdy]
      rw [div_le_one (by norm_num : (0 : ℚ) < 4)]
      linarith

/-- C10.  `quicksort` never writes to the key array: the `dists` component
of its result is the input `dists`, for every fuel, index array and range
(in the source, `dists` is only ever read). -/
theorem C10_quicksort_preserves_dists (fuel : ℕ) (ids : List ℕ)
    (dists : List F) (left right : ℕ) :
    (quicksort fuel ids dists left right).2 = dists := by
  induction fuel generalizing ids left right with
  | zero =>
      rw [quicksort]
      split
      · rfl
      · split
        · rfl
        · rfl
  | succ fuel ih =>
      rw [quicksort]
      split
      · rfl
      · split
        · rfl
        · simp only
          split <;> split <;> split <;> split <;> rw [ih, ih]

/-- C3.  `create` returns an error exactly when the coordinate buffer is
empty, of odd length, or has a non-finite first entry; and whenever it
returns an instance, that instance is the freshly allocated state after one
`update` run (so a failed `create` yields no instance at all).  For valid
lengths below three points the constructor panics instead of returning
(see `C4_small_input_panics`), which returns no error either. -/
theorem C3_create_validation (coords : List F) :
    ((∃ msg, new coords = NewResult.err msg) ↔
      (coords.length = 0 ∨ coords.length % 2 = 1 ∨
        (coords.getD 0 F.nan).isFinite = false)) ∧
    (∀ d, new coords = NewResult.ok d →
      d = update (mkDelaunator coords (coords.length / 2)
            (max (usizeSub (2 * (coords.length / 2)) 5) 0)
            (nextPowerOfTwo (coords.length / 2) / 2))) := by
  by_cases h1 : coords.length / 2 = 0 ∨ coords.length % 2 ≠ 0
  · have hrhs : coords.length = 0 ∨ coords.length % 2 = 1 := by omega
    constructor
    · constructor
      · intro _
        tauto
      · intro _
        refine ⟨"Invalid coordinates array", ?_⟩
        rw [new, if_pos h1]
    · intro d hd
      rw [new, if_pos h1] at hd
      cases hd
  · by_cases h2 : 0 < coords.length / 2 ∧
        ¬(coords.getD 0 F.nan).isFinite = true
    · constructor
      · constructor
        · intro _
          right; right
          simpa using h2.2
        · intro _
          refine ⟨"Expected coords to contain numbers", ?_⟩
          rw [new, if_neg h1, if_pos h2]
      · intro d hd
        rw [new, if_neg h1, if_pos h2] at hd
        cases hd
    · have hfin : (coords.getD 0 F.nan).isFinite = true := by
        rcases not_and_or.mp h2 with h | h
        · exact absurd (by omega) h
        · exact not_not.mp h
      constructor
      · constructor
        · intro hmsg
          obtain ⟨msg, hmsg⟩ := hmsg
          rw [new, if_neg h1, if_neg h2] at hmsg
          simp only [] at hmsg
          split at hmsg
          · cases hmsg
          · cases hmsg
        · intro hrhs
          exfalso
          rcases hrhs with h | h | h
          · omega
          · omega
          · rw [hfin] at h
            cases h
      · intro d hd
        rw [new, if_neg h1, if_neg h2] at hd
        simp only [] at hd
        split at hd
        · cases hd
        · injection hd with hd
          exact hd.symm

/-- Witness for C3 at the concrete input `[nan]`: an odd-length buffer makes
`create` return an error. -/
theorem C3_create_validation_witness :
    ∃ msg, new [F.nan] = NewResult.err msg :=
  (C3_create_validation [F.nan]).1.mpr (by decide)


/-- Reading a just-written position gives the written value. -/
theorem getD_set_self {α : Type} (l : List α) (i : ℕ) (v d : α)
    (h : i < l.length) : (l.set i v).getD i d = v := by
  rw [List.getD_eq_getElem?_getD, List.getElem?_set_self (by simpa using h)]
  rfl

/-- Reading another position is unaffected by a write. -/
theorem getD_set_ne {α : Type} (l : List α) (i j : ℕ) (v d : α)
    (h : i ≠ j) : (l.set i v).getD j d = l.getD j d := by
  rw [List.getD_eq_getElem?_getD, List.getElem?_set_ne h,
    ← List.getD_eq_getElem?_getD]

/-- Counting after a write: the written value replaces the old entry. -/
theorem count_set_add (l : List ℕ) (i : ℕ) (v : ℕ) (h : i < l.length)
    (x : ℕ) :
    (l.set i v).count x + (if l.getD i 0 = x then 1 else 0) =
      l.count x + (if v = x then 1 else 0) := by
  have hgd : l.getD i 0 = l[i] := by
    rw [List.getD_eq_getElem?_getD, List.getElem?_eq_getElem h]
    rfl
  rw [hgd, List.set_eq_take_cons_drop v h]
  conv_rhs => rw [← List.take_append_drop i l, ← List.getElem_cons_drop l i h]
  simp only [List.count_append, List.count_cons]
  by_cases hv : v = x <;> by_cases hl : l[i] = x <;>
    simp [hv, hl] <;> omega

/-- `swap` preserves length. -/
theorem swap_length (a : List ℕ) (i j : ℕ) :
    (swap a i j).length = a.length := by
  simp [swap]

/-- After `swap`, position `i` holds the old entry of `j`. -/
theorem swap_getD_left (a : List ℕ) (i j : ℕ) (hi : i < a.length)
    (hj : j < a.length) : (swap a i j).getD i 0 = a.getD j 0 := by
  rw [swap]
  by_cases hij : i = j
  · subst hij
    rw [getD_set_self _ _ _ _ (by simpa using hi)]
  · rw [getD_set_ne _ _ _ _ _ (Ne.symm hij), getD_set_self _ _ _ _ hi]

/-- After `swap`, position `j` holds the old entry of `i`. -/
theorem swap_getD_right (a : List ℕ) (i j : ℕ) (hi : i < a.length)
    (hj : j < a.length) : (swap a i j).getD j 0 = a.getD i 0 := by
  rw [swap, getD_set_self _ _ _ _ (by simpa using hj)]

/-- `swap` does not move other positions. -/
theorem swap_getD_other (a : List ℕ) (i j k : ℕ) (hik : k ≠ i)
    (hjk : k ≠ j) : (swap a i j).getD k 0 = a.getD k 0 := by
  rw [swap, getD_set_ne _ _ _ _ _ (Ne.symm hjk),
    getD_set_ne _ _ _ _ _ (Ne.symm hik)]

/-- `swap` preserves counts. -/
theorem swap_count (a : List ℕ) (i j : ℕ) (hi : i < a.length)
    (hj : j < a.length) (x : ℕ) : (swap a i j).count x = a.count x := by
  have h1 := count_set_add a i (a.getD j 0) hi x
  have h2 := count_set_add (a.set i (a.getD j 0)) j (a.getD i 0)
    (by simpa using hj) x
  have hbj : (a.set i (a.getD j 0)).getD j 0 = a.getD j 0 := by
    by_cases hij : i = j
    · subst hij
      rw [getD_set_self _ _ _ _ hi]
    · rw [getD_set_ne _ _ _ _ _ hij]
  rw [hbj] at h2
  rw [swap]
  by_cases hvi : a.getD i 0 = x <;> by_cases hvj : a.getD j 0 = x <;>
    simp [hvi, hvj] at h1 h2 ⊢ <;> omega

/-- `F.le` is reflexive away from NaN. -/
theorem F_le_refl (a : F) (h : a ≠ F.nan) : F.le a a = true := by
  cases a with
  | fin q => simp [F.le]
  | inf => rfl
  | neginf => rfl
  | nan => exact absurd rfl h

/-- Failed strict comparison flips to `le` away from NaN. -/
theorem F_le_of_not_lt (a b : F) (ha : a ≠ F.nan) (hb : b ≠ F.nan)
    (h : F.lt a b = false) : F.le b a = true := by
  cases a <;> cases b <;>
    simp_all [F.lt, F.le, le_of_not_lt]

/-- Strict comparison implies `le`. -/
theorem F_le_of_lt (a b : F) (h : F.lt a b = true) : F.le a b = true := by
  cases a <;> cases b <;> simp_all [F.lt, F.le, le_of_lt]

/-- A true `le` rules out NaN on the left. -/
theorem F_ne_nan_of_le_left (a b : F) (h : F.le a b = true) : a ≠ F.nan := by
  cases a <;> cases b <;> simp_all [F.le]

/-- A true `le` rules out NaN on the right. -/
theorem F_ne_nan_of_le_right (a b : F) (h : F.le a b = true) : b ≠ F.nan := by
  cases a <;> cases b <;> simp_all [F.le]

/-- `F.le` is transitive. -/
theorem F_le_trans (a b c : F) (hab : F.le a b = true)
    (hbc : F.le b c = true) : F.le a c = true := by
  cases a <;> cases b <;> cases c <;>
    simp_all [F.le] <;> linarith

/-- `getD` within bounds is `getElem`. -/
theorem getD_eq_getElem {α : Type} (l : List α) (i : ℕ) (d : α)
    (h : i < l.length) : l.getD i d = l[i] := by
  rw [List.getD_eq_getElem?_getD, List.getElem?_eq_getElem h]
  rfl

/-- Transfer a value-wise property of the segment `[lo, hi]` across a
count-preserving, frame-preserving transformation: the segment holds the
same values as a multiset, so any property of the values at those positions
carries over. -/
theorem count_frame_transfer (a b : List ℕ) (lo hi : ℕ) (P : ℕ → Prop)
    (hlen : a.length = b.length)
    (hcount : ∀ x, a.count x = b.count x)
    (hframe : ∀ k, k < lo ∨ hi < k → a.getD k 0 = b.getD k 0)
    (hP : ∀ k, lo ≤ k → k ≤ hi → k < b.length → P (b.getD k 0)) :
    ∀ k, lo ≤ k → k ≤ hi → k < a.length → P (a.getD k 0) := by
  intro k hlo hhi hk
  have hta : a.take lo = b.take lo := by
    apply List.ext_getElem (by simp [hlen])
    intro i h1 h2
    have hi1 : i < lo := by simp at h1; omega
    have hia : i < a.length := by simp at h1; omega
    have hib : i < b.length := by omega
    rw [List.getElem_take, List.getElem_take,
      ← getD_eq_getElem a i 0 hia, ← getD_eq_getElem b i 0 hib]
    exact hframe i (Or.inl hi1)
  have hda : a.drop (hi + 1) = b.drop (hi + 1) := by
    apply List.ext_getElem (by simp [hlen])
    intro i h1 h2
    have hia : hi + 1 + i < a.length := by simp at h1; omega
    have hib : hi + 1 + i < b.length := by omega
    rw [List.getElem_drop, List.getElem_drop,
      ← getD_eq_getElem a _ 0 hia, ← getD_eq_getElem b _ 0 hib]
    exact hframe _ (Or.inr (by omega))
  have hdecompA : a = a.take lo ++ ((a.drop lo).take (hi + 1 - lo) ++
      a.drop (hi + 1)) := by
    conv_lhs => rw [← List.take_append_drop lo a]
    congr 1
    conv_lhs => rw [← List.take_append_drop (hi + 1 - lo) (a.drop lo)]
    rw [List.drop_drop]
    congr 2
    omega
  have hdecompB : b = b.take lo ++ ((b.drop lo).take (hi + 1 - lo) ++
      b.drop (hi + 1)) := by
    conv_lhs => rw [← List.take_append_drop lo b]
    congr 1
    conv_lhs => rw [← List.take_append_drop (hi + 1 - lo) (b.drop lo)]
    rw [List.drop_drop]
    congr 2
    omega
  have hsegcount : ∀ x, ((a.drop lo).take (hi + 1 - lo)).count x =
      ((b.drop lo).take (hi + 1 - lo)).count x := by
    intro x
    have hc := hcount x
    rw [hdecompA, hdecompB, hta, hda] at hc
    simp only [List.count_append] at hc
    omega
  have hklo : k - lo < hi + 1 - lo := by omega
  have hkda : k - lo < (a.drop lo).length := by simp; omega
  have hkb : k - lo < ((a.drop lo).take (hi + 1 - lo)).length := by
    simp
    omega
  have hvA : ((a.drop lo).take (hi + 1 - lo))[k - lo] = a.getD k 0 := by
    rw [List.getElem_take, List.getElem_drop,
      ← getD_eq_getElem a _ 0 (by omega)]
    congr 1
    omega
  have hmemA : a.getD k 0 ∈ (a.drop lo).take (hi + 1 - lo) := by
    rw [← hvA]
    exact List.getElem_mem _
  have hcntB : 0 < ((b.drop lo).take (hi + 1 - lo)).count (a.getD k 0) := by
    rw [← hsegcount]
    exact List.count_pos_iff.mpr hmemA
  have hmemB : a.getD k 0 ∈ (b.drop lo).take (hi + 1 - lo) :=
    List.count_pos_iff.mp hcntB
  obtain ⟨idx, hidx, hval⟩ := List.getElem_of_mem hmemB
  have hidx2 : idx < hi + 1 - lo := by
    have := hidx
    simp at this
    omega
  have hidxb : lo + idx < b.length := by
    have := hidx
    simp at this
    omega
  have hbval : b.getD (lo + idx) 0 = a.getD k 0 := by
    rw [← hval, List.getElem_take, List.getElem_drop,
      ← getD_eq_getElem b _ 0 (by omega)]
  have := hP (lo + idx) (by omega) (by omega) (by omega)
  rw [hbval] at this
  exact this

/-- Full specification of the insertion-sort shift loop: the hole index is
at most the start, untouched positions keep their entries, shifted positions
move one to the right, every shifted entry compared strictly above the
inserted key, and the stop was justified. -/
theorem insSortShift_spec (dists : List F) (l : ℕ) (t : F) :
    ∀ (i : ℕ) (ids : List ℕ), i < ids.length →
    (insSortShift dists l t i ids).1 ≤ i ∧
    (insSortShift dists l t i ids).2.length = ids.length ∧
    (∀ k, k ≤ (insSortShift dists l t i ids).1 →
      (insSortShift dists l t i ids).2.getD k 0 = ids.getD k 0) ∧
    (∀ k, i < k →
      (insSortShift dists l t i ids).2.getD k 0 = ids.getD k 0) ∧
    (∀ k, (insSortShift dists l t i ids).1 < k → k ≤ i →
      (insSortShift dists l t i ids).2.getD k 0 = ids.getD (k - 1) 0) ∧
    (∀ k, (insSortShift dists l t i ids).1 < k → k ≤ i →
      F.lt t (dists.getD (ids.getD (k - 1) 0) (F.fin 0)) = true) ∧
    (l < (insSortShift dists l t i ids).1 →
      F.lt t (dists.getD (ids.getD ((insSortShift dists l t i ids).1 - 1) 0)
        (F.fin 0)) = false) ∧
    (l ≤ i → l ≤ (insSortShift dists l t i ids).1) := by
  intro i
  induction i with
  | zero =>
      intro ids _
      rw [insSortShift]
      refine ⟨le_refl 0, rfl, fun k _ => rfl, fun k _ => rfl,
        fun k h1 h2 => by omega, fun k h1 h2 => by omega,
        fun h => by omega, fun h => h⟩
  | succ i ih =>
      intro ids hlen
      rw [insSortShift]
      split
      · rename_i hcond
        obtain ⟨hc1, hc2⟩ := hcond
        obtain ⟨ha, hb, hc, hd, he, hf, hg, hi2⟩ :=
          ih (ids.set (i + 1) (ids.getD i 0)) (by simpa using Nat.lt_of_succ_lt hlen)
        refine ⟨by omega, ?_, ?_, ?_, ?_, ?_, ?_, ?_⟩
        · rw [hb]
          simp
        · intro k hk
          rw [hc k hk, getD_set_ne _ _ _ _ _ (by omega)]
        · intro k hk
          rw [hd k (by omega), getD_set_ne _ _ _ _ _ (by omega)]
        · intro k hk1 hk2
          by_cases hki : k ≤ i
          · rw [he k hk1 hki, getD_set_ne _ _ _ _ _ (by omega)]
          · have hk3 : k = i + 1 := by omega
            subst hk3
            rw [hd (i + 1) (by omega), getD_set_self _ _ _ _ hlen]
            simp
        · intro k hk1 hk2
          by_cases hki : k ≤ i
          · have := hf k hk1 hki
            rwa [getD_set_ne _ _ _ _ _ (by omega)] at this
          · have hk3 : k = i + 1 := by omega
            subst hk3
            simpa using hc2
        · intro hl
          have := hg hl
          rwa [getD_set_ne _ _ _ _ _ (by omega)] at this
        · intro _
          exact hi2 (by omega)
      · rename_i hcond
        rw [not_and_or] at hcond
        refine ⟨le_refl _, rfl, fun k _ => rfl, fun k _ => rfl,
          fun k h1 h2 => by omega, fun k h1 h2 => by omega, ?_, fun h => h⟩
        intro hl
        rcases hcond with h | h
        · omega
        · simpa using h

/-- A full shift-and-place step permutes the array: placing any value into
the hole left by the shift has the same counts as overwriting the start
position with that value. -/
theorem insSortShift_count (dists : List F) (l : ℕ) (t : F) :
    ∀ (i : ℕ) (ids : List ℕ), i < ids.length → ∀ (v : ℕ) (x : ℕ),
    ((insSortShift dists l t i ids).2.set (insSortShift dists l t i ids).1
      v).count x = (ids.set i v).count x := by
  intro i
  induction i with
  | zero =>
      intro ids _ v x
      rw [insSortShift]
  | succ i ih =>
      intro ids hlen v x
      rw [insSortShift]
      split
      · have hlen2 : i < (ids.set (i + 1) (ids.getD i 0)).length := by
          simp
          omega
        rw [ih (ids.set (i + 1) (ids.getD i 0)) hlen2 v x]
        have e1 := count_set_add ids (i + 1) (ids.getD i 0) hlen x
        have e2 := count_set_add (ids.set (i + 1) (ids.getD i 0)) i v
          (by simp; omega) x
        have e3 := count_set_add ids (i + 1) v hlen x
        rw [getD_set_ne _ _ _ _ _ (by omega)] at e2
        by_cases h1 : ids.getD (i + 1) 0 = x <;>
          by_cases h2 : ids.getD i 0 = x <;>
          by_cases h3 : v = x <;>
          simp [h1, h2, h3] at e1 e2 e3 ⊢ <;> omega
      · rfl

/-- One insertion step: shift then place the saved entry.  Length and counts
are preserved, positions outside `[l, i]` are untouched, and a sorted prefix
`[l, i-1]` extends to a sorted prefix `[l, i]` when the keys carry no NaN. -/
theorem insStep_spec (dists : List F) (l i : ℕ) (ids : List ℕ)
    (hlen : i < ids.length) (hli : l ≤ i) :
    ((insSortShift dists l (dists.getD (ids.getD i 0) (F.fin 0)) i
        ids).2.set
      (insSortShift dists l (dists.getD (ids.getD i 0) (F.fin 0)) i ids).1
      (ids.getD i 0)).length = ids.length ∧
    (∀ x, ((insSortShift dists l (dists.getD (ids.getD i 0) (F.fin 0)) i
        ids).2.set
      (insSortShift dists l (dists.getD (ids.getD i 0) (F.fin 0)) i ids).1
      (ids.getD i 0)).count x = ids.count x) ∧
    (∀ k, k < l ∨ i < k →
      ((insSortShift dists l (dists.getD (ids.getD i 0) (F.fin 0)) i
          ids).2.set
        (insSortShift dists l (dists.getD (ids.getD i 0) (F.fin 0)) i
          ids).1 (ids.getD i 0)).getD k 0 = ids.getD k 0) ∧
    ((∀ v, dists.getD v (F.fin 0) ≠ F.nan) → AscOn dists ids l (i - 1) →
      AscOn dists
        ((insSortShift dists l (dists.getD (ids.getD i 0) (F.fin 0)) i
            ids).2.set
          (insSortShift dists l (dists.getD (ids.getD i 0) (F.fin 0)) i
            ids).1 (ids.getD i 0)) l i) := by
  set t := dists.getD (ids.getD i 0) (F.fin 0) with ht
  obtain ⟨ha, hb, hc, hd, he, hf, hg, hi2⟩ :=
    insSortShift_spec dists l t i ids hlen
  set sh := insSortShift dists l t i ids with hsh
  set j := sh.1 with hj
  have hjlen : j < sh.2.length := by
    rw [hb]
    omega
  refine ⟨by simp [hb], fun x => ?_, ?_, ?_⟩
  · have h1 := insSortShift_count dists l t i ids hlen (ids.getD i 0) x
    have h2 := count_set_add ids i (ids.getD i 0) hlen x
    rw [← hsh, ← hj] at h1
    rw [h1]
    by_cases hx : ids.getD i 0 = x
    · rw [if_pos hx] at h2
      omega
    · rw [if_neg hx] at h2
      omega
  · intro k hk
    have hkj : k ≠ j := by
      have := hi2 hli
      omega
    rw [getD_set_ne _ _ _ _ _ (Ne.symm hkj)]
    rcases hk with hk | hk
    · exact hc k (by have := hi2 hli; omega)
    · exact hd k hk
  · intro hnn hasc
    intro k hk1 hk2
    have hjl : l ≤ j := hi2 hli
    -- key values of the new array at the relevant positions
    have hkey_lt : ∀ m, m < j →
        keyAt (sh.2.set j (ids.getD i 0)) dists m = keyAt ids dists m := by
      intro m hm
      rw [keyAt, keyAt, getD_set_ne _ _ _ _ _ (by omega), hc m (by omega)]
    have hkey_j : keyAt (sh.2.set j (ids.getD i 0)) dists j = t := by
      rw [keyAt, getD_set_self _ _ _ _ hjlen, ht]
    have hkey_shift : ∀ m, j < m → m ≤ i →
        keyAt (sh.2.set j (ids.getD i 0)) dists m =
          keyAt ids dists (m - 1) := by
      intro m hm1 hm2
      rw [keyAt, keyAt, getD_set_ne _ _ _ _ _ (by omega), he m hm1 hm2]
    by_cases hc1 : k + 1 < j
    · rw [hkey_lt k (by omega), hkey_lt (k + 1) (by omega)]
      exact hasc k hk1 (by omega)
    · by_cases hc2 : k + 1 = j
      · rw [hkey_lt k (by omega), hc2, hkey_j]
        have hlj : l < j := by omega
        have := hg hlj
        have hkj : k = j - 1 := by omega
        rw [hkj]
        exact F_le_of_not_lt _ _ (hnn _) (hnn _) this
      · by_cases hc3 : k = j
        · rw [hc3, hkey_j, hkey_shift (j + 1) (by omega) (by omega)]
          have := hf (j + 1) (by omega) (by omega)
          simp only [Nat.add_sub_cancel] at this
          exact F_le_of_lt _ _ this
        · have hkj : j < k := by omega
          rw [hkey_shift k (by omega) (by omega),
            hkey_shift (k + 1) (by omega) (by omega)]
          have : k + 1 - 1 = (k - 1) + 1 := by omega
          rw [this]
          exact hasc (k - 1) (by omega) (by omega)

theorem insSortLoop_succ (dists : List F) (l i count : ℕ) (ids : List ℕ) :
    insSortLoop dists l i (count + 1) ids =
      insSortLoop dists l (i + 1) count
        ((insSortShift dists l (dists.getD (ids.getD i 0) (F.fin 0)) i
            ids).2.set
          (insSortShift dists l (dists.getD (ids.getD i 0) (F.fin 0)) i
            ids).1 (ids.getD i 0)) := rfl

/-- The insertion-sort loop sorts `[l, l+count]`-ish: starting at position
`i > l` with `[l, i-1]` already ascending, it preserves length and counts,
touches only `[l, i+count)`, and leaves `[l, i+count-1]` ascending when the
keys carry no NaN. -/
theorem insSortLoop_spec (dists : List F) (l : ℕ) :
    ∀ (count i : ℕ) (ids : List ℕ), l < i → i + count ≤ ids.length →
    (insSortLoop dists l i count ids).length = ids.length ∧
    (∀ x, (insSortLoop dists l i count ids).count x = ids.count x) ∧
    (∀ k, k < l ∨ i + count ≤ k →
      (insSortLoop dists l i count ids).getD k 0 = ids.getD k 0) ∧
    ((∀ v, dists.getD v (F.fin 0) ≠ F.nan) → AscOn dists ids l (i - 1) →
      AscOn dists (insSortLoop dists l i count ids) l (i + count - 1)) := by
  intro count
  induction count with
  | zero =>
      intro i ids hli hlen
      rw [insSortLoop]
      exact ⟨rfl, fun _ => rfl, fun _ _ => rfl, fun _ h => h⟩
  | succ count ih =>
      intro i ids hli hlen
      rw [insSortLoop_succ]
      have hilen : i < ids.length := by omega
      obtain ⟨s1, s2, s3, s4⟩ := insStep_spec dists l i ids hilen (by omega)
      obtain ⟨r1, r2, r3, r4⟩ := ih (i + 1)
        ((insSortShift dists l (dists.getD (ids.getD i 0) (F.fin 0)) i
            ids).2.set
          (insSortShift dists l (dists.getD (ids.getD i 0) (F.fin 0)) i
            ids).1 (ids.getD i 0)) (by omega) (by rw [s1]; omega)
      refine ⟨by rw [r1, s1], fun x => by rw [r2 x, s2 x], ?_, ?_⟩
      · intro k hk
        rw [r3 k (by omega), s3 k (by omega)]
      · intro hnn hasc
        have h2 := s4 hnn hasc
        have h2' : AscOn dists
            ((insSortShift dists l (dists.getD (ids.getD i 0) (F.fin 0)) i
                ids).2.set
              (insSortShift dists l (dists.getD (ids.getD i 0) (F.fin 0)) i
                ids).1 (ids.getD i 0)) l (i + 1 - 1) := by
          have he : i + 1 - 1 = i := rfl
          rw [he]
          exact h2
        have h3 := r4 hnn h2'
        have he2 : i + (count + 1) - 1 = i + 1 + count - 1 := by omega
        rw [he2]
        exact h3

theorem scanI_zero (dists : List F) (right : ℕ) (t : F) (i : ℕ)
    (ids : List ℕ) : scanI dists right t 0 i ids = i + 1 := rfl

theorem scanI_succ (dists : List F) (right : ℕ) (t : F) (fuel i : ℕ)
    (ids : List ℕ) :
    scanI dists right t (fuel + 1) i ids =
      if right ≤ i + 1 ∨
          F.le t (dists.getD (ids.getD (i + 1) 0) (F.fin 0)) then i + 1
      else scanI dists right t fuel (i + 1) ids := rfl

theorem scanJ_zero (dists : List F) (left : ℕ) (t : F) (j : ℕ)
    (ids : List ℕ) : scanJ dists left t 0 j ids = j - 1 := rfl

theorem scanJ_succ (dists : List F) (left : ℕ) (t : F) (fuel j : ℕ)
    (ids : List ℕ) :
    scanJ dists left t (fuel + 1) j ids =
      if j - 1 ≤ left ∨
          F.le (dists.getD (ids.getD (j - 1) 0) (F.fin 0)) t then j - 1
      else scanJ dists left t fuel (j - 1) ids := rfl

/-- The `i += 1` scan: the result is past `i`, every strictly passed
position has key strictly below the pivot, the result stays within `right`
when the fuel covers the gap, and if it stopped before `right` it stopped on
a key at least the pivot. -/
theorem scanI_spec (dists : List F) (right : ℕ) (t : F) (ids : List ℕ) :
    ∀ (fuel i : ℕ),
    i + 1 ≤ scanI dists right t fuel i ids ∧
    (∀ m, i < m → m < scanI dists right t fuel i ids →
      F.le t (keyAt ids dists m) = false) ∧
    (i < right → right - i - 1 ≤ fuel →
      scanI dists right t fuel i ids ≤ right) ∧
    (right - i - 1 ≤ fuel → scanI dists right t fuel i ids < right →
      F.le t (keyAt ids dists (scanI dists right t fuel i ids)) = true) := by
  intro fuel
  induction fuel with
  | zero =>
      intro i
      rw [scanI_zero]
      exact ⟨le_refl _, fun m h1 h2 => absurd h2 (by omega),
        fun h1 h2 => by omega, fun h1 h2 => absurd h2 (by omega)⟩
  | succ fuel ih =>
      intro i
      rw [scanI_succ]
      by_cases hc : right ≤ i + 1 ∨
          F.le t (dists.getD (ids.getD (i + 1) 0) (F.fin 0)) = true
      · rw [if_pos hc]
        refine ⟨le_refl _, fun m h1 h2 => absurd h2 (by omega), by omega,
          ?_⟩
        intro h1 h2
        rcases hc with hc | hc
        · omega
        · exact hc
      · rw [if_neg hc]
        push_neg at hc
        obtain ⟨a, b, c, d⟩ := ih (i + 1)
        refine ⟨by omega, ?_, fun h1 h2 => c (by omega) (by omega),
          fun h1 h2 => d (by omega) h2⟩
        intro m h1 h2
        by_cases hm : m = i + 1
        · rw [hm]
          rw [keyAt]
          simpa using hc.2
        · exact b m (by omega) h2

/-- The `j -= 1` scan: the result is before `j`, every strictly passed
position has key strictly above the pivot, the result stays at or after
`left` when started after it, and if it stopped after `left` it stopped on
a key at most the pivot. -/
theorem scanJ_spec (dists : List F) (left : ℕ) (t : F) (ids : List ℕ) :
    ∀ (fuel j : ℕ), j ≤ fuel →
    scanJ dists left t fuel j ids ≤ j - 1 ∧
    (∀ m, scanJ dists left t fuel j ids < m → m < j →
      F.le (keyAt ids dists m) t = false) ∧
    (left < j → left ≤ scanJ dists left t fuel j ids) ∧
    (left < scanJ dists left t fuel j ids →
      F.le (keyAt ids dists (scanJ dists left t fuel j ids)) t = true) := by
  intro fuel
  induction fuel with
  | zero =>
      intro j hj
      rw [scanJ_zero]
      exact ⟨le_refl _, fun m h1 h2 => absurd h2 (by omega),
        fun h1 => by omega, fun h1 => absurd h1 (by omega)⟩
  | succ fuel ih =>
      intro j hj
      rw [scanJ_succ]
      by_cases hc : j - 1 ≤ left ∨
          F.le (dists.getD (ids.getD (j - 1) 0) (F.fin 0)) t = true
      · rw [if_pos hc]
        refine ⟨le_refl _, fun m h1 h2 => absurd h1 (by omega),
          fun h1 => by omega, ?_⟩
        intro h1
        rcases hc with hc | hc
        · omega
        · exact hc
      · rw [if_neg hc]
        push_neg at hc
        obtain ⟨a, b, c, d⟩ := ih (j - 1) (by omega)
        refine ⟨by omega, ?_, fun h1 => c (by omega), d⟩
        intro m h1 h2
        by_cases hm : m = j - 1
        · rw [hm, keyAt]
          simpa using hc.2
        · exact b m h1 (by omega)

/-- `F.le` is total away from NaN. -/
theorem F_le_total (a b : F) (ha : a ≠ F.nan) (hb : b ≠ F.nan) :
    F.le a b = true ∨ F.le b a = true := by
  cases a <;> cases b <;> simp [F.le] at ha hb ⊢
  exact le_total _ _

/-- If `a ≤ b` fails away from NaN, then `b ≤ a`. -/
theorem F_le_of_not_le (a b : F) (ha : a ≠ F.nan) (hb : b ≠ F.nan)
    (h : F.le a b = false) : F.le b a = true := by
  rcases F_le_total a b ha hb with h1 | h1
  · rw [h] at h1
    exact absurd h1 (by simp)
  · exact h1

theorem partitionLoop_zero (dists : List F) (left right : ℕ) (t : F)
    (i j : ℕ) (ids : List ℕ) :
    partitionLoop dists left right t 0 i j ids = (i, j, ids) := rfl

theorem partitionLoop_succ (dists : List F) (left right : ℕ) (t : F)
    (fuel i j : ℕ) (ids : List ℕ) :
    partitionLoop dists left right t (fuel + 1) i j ids =
      if scanJ dists left t j j ids < scanI dists right t (right - i) i ids
      then (scanI dists right t (right - i) i ids,
        scanJ dists left t j j ids, ids)
      else partitionLoop dists left right t fuel
        (scanI dists right t (right - i) i ids)
        (scanJ dists left t j j ids)
        (swap ids (scanI dists right t (right - i) i ids)
          (scanJ dists left t j j ids)) := rfl

/-- Invariant proof for the Hoare partition loop: from a state where
`[left+1, i]` holds keys at most the pivot, `[j, right]` holds keys at least
the pivot, and position `left+1` holds the pivot key, the loop preserves
length, counts and the positions outside `(left+1, right)`, and exits with
crossed indices `j* < i*` such that every position below `i*` carries a key
at most the pivot and every position above `j*` carries a key at least the
pivot. -/
theorem partitionLoop_spec (dists : List F) (left right : ℕ) (t : F)
    (hnn : ∀ v, dists.getD v (F.fin 0) ≠ F.nan) (htnn : t ≠ F.nan) :
    ∀ (fuel : ℕ) (i j : ℕ) (ids : List ℕ),
    right < ids.length →
    left + 1 ≤ i → i ≤ j → j ≤ right → i < right → left + 1 < j →
    j - i < 2 * fuel →
    keyAt ids dists (left + 1) = t →
    (∀ k, left + 1 ≤ k → k ≤ i → F.le (keyAt ids dists k) t = true) →
    (∀ k, j ≤ k → k ≤ right → F.le t (keyAt ids dists k) = true) →
    (partitionLoop dists left right t fuel i j ids).2.2.length =
      ids.length ∧
    (∀ x, (partitionLoop dists left right t fuel i j ids).2.2.count x =
      ids.count x) ∧
    (∀ k, k ≤ left + 1 ∨ right ≤ k →
      (partitionLoop dists left right t fuel i j ids).2.2.getD k 0 =
        ids.getD k 0) ∧
    (partitionLoop dists left right t fuel i j ids).2.1 <
      (partitionLoop dists left right t fuel i j ids).1 ∧
    left + 1 ≤ (partitionLoop dists left right t fuel i j ids).2.1 ∧
    (partitionLoop dists left right t fuel i j ids).2.1 ≤ right - 1 ∧
    left + 2 ≤ (partitionLoop dists left right t fuel i j ids).1 ∧
    (partitionLoop dists left right t fuel i j ids).1 ≤ right ∧
    (∀ m, left + 1 ≤ m →
      m < (partitionLoop dists left right t fuel i j ids).1 →
      F.le (keyAt (partitionLoop dists left right t fuel i j ids).2.2
        dists m) t = true) ∧
    (∀ m, (partitionLoop dists left right t fuel i j ids).2.1 < m →
      m ≤ right →
      F.le t (keyAt (partitionLoop dists left right t fuel i j ids).2.2
        dists m) = true) := by
  intro fuel
  induction fuel with
  | zero =>
      intro i j ids _ _ _ _ _ _ hfuel _ _ _
      omega
  | succ fuel ih =>
      intro i j ids hrlen hli hij hjr hir hlj hfuel htemp hA hB
      obtain ⟨ia, ib, ic, id2⟩ := scanI_spec dists right t ids (right - i) i
      obtain ⟨ja, jb, jc, jd⟩ := scanJ_spec dists left t ids j j (le_refl j)
      rw [partitionLoop_succ]
      set i' := scanI dists right t (right - i) i ids with hi'def
      set j' := scanJ dists left t j j ids with hj'def
      have hi'r : i' ≤ right := ic hir (by omega)
      have hkey : ∀ v, keyAt ids dists v ≠ F.nan := fun v => hnn _
      have hj'lb : left + 1 ≤ j' := by
        by_contra hcon
        push_neg at hcon
        have hm := jb (left + 1) (by omega) (by omega)
        rw [htemp, F_le_refl t htnn] at hm
        exact absurd hm (by simp)
      by_cases hexit : j' < i'
      · rw [if_pos hexit]
        dsimp only
        refine ⟨rfl, fun x => rfl, fun k hk => rfl, hexit, hj'lb, by omega,
          by omega, hi'r, ?_, ?_⟩
        · intro m hm1 hm2
          by_cases hmi : m ≤ i
          · exact hA m hm1 hmi
          · exact F_le_of_not_le _ _ htnn (hkey m)
              (ib m (by omega) hm2)
        · intro m hm1 hm2
          by_cases hmj : j ≤ m
          · exact hB m hmj hm2
          · exact F_le_of_not_le _ _ (hkey m) htnn (jb m hm1 (by omega))
      · rw [if_neg hexit]
        push_neg at hexit
        have hswlen : (swap ids i' j').length = ids.length := swap_length _ _ _
        have hi'lt : i' < ids.length := by omega
        have hj'lt : j' < ids.length := by omega
        have hks_i : keyAt (swap ids i' j') dists i' = keyAt ids dists j' := by
          rw [keyAt, keyAt, swap_getD_left _ _ _ hi'lt hj'lt]
        have hks_j : keyAt (swap ids i' j') dists j' = keyAt ids dists i' := by
          rw [keyAt, keyAt, swap_getD_right _ _ _ hi'lt hj'lt]
        have hks_other : ∀ m, m ≠ i' → m ≠ j' →
            keyAt (swap ids i' j') dists m = keyAt ids dists m := by
          intro m h1 h2
          rw [keyAt, keyAt, swap_getD_other _ _ _ _ h1 h2]
        have hA' : ∀ k, left + 1 ≤ k → k ≤ i' →
            F.le (keyAt (swap ids i' j') dists k) t = true := by
          intro k h1 h2
          by_cases hki : k = i'
          · rw [hki, hks_i]
            exact jd (by omega)
          · rw [hks_other k hki (by omega)]
            by_cases hk2 : k ≤ i
            · exact hA k h1 hk2
            · exact F_le_of_not_le _ _ htnn (hkey k)
                (ib k (by omega) (by omega))
        have hB' : ∀ k, j' ≤ k → k ≤ right →
            F.le t (keyAt (swap ids i' j') dists k) = true := by
          intro k h1 h2
          by_cases hkj : k = j'
          · rw [hkj, hks_j]
            exact id2 (by omega) (by omega)
          · rw [hks_other k (by omega) hkj]
            by_cases hk2 : j ≤ k
            · exact hB k hk2 h2
            · exact F_le_of_not_le _ _ (hkey k) htnn
                (jb k (by omega) (by omega))
        have htemp' : keyAt (swap ids i' j') dists (left + 1) = t := by
          rw [hks_other (left + 1) (by omega) (by omega), htemp]
        obtain ⟨r1, r2, r3, r4, r5, r6, r7, r8, r9, r10⟩ :=
          ih i' j' (swap ids i' j') (by rw [hswlen]; exact hrlen)
            (by omega) hexit (by omega) (by omega) (by omega) (by omega)
            htemp' hA' hB'
        refine ⟨by rw [r1, hswlen],
          fun x => by rw [r2 x, swap_count _ _ _ hi'lt hj'lt x],
          ?_, r4, r5, r6, r7, r8, r9, r10⟩
        intro k hk
        rw [r3 k hk, swap_getD_other _ _ _ _ (by omega) (by omega)]

theorem quicksort_unfold (fuel : ℕ) (ids : List ℕ) (dists : List F)
    (left right : ℕ) :
    quicksort (fuel + 1) ids dists left right =
      if right ≤ left then (ids, dists)
      else if right - left ≤ 20 then
        (insSortLoop dists left (left + 1) (right - left) ids, dists)
      else
        let ids1 := medianPrep dists left right ids
        let temp := ids1.getD (left + 1) 0
        let t := dists.getD temp (F.fin 0)
        let pt := partitionLoop dists left right t (right - left)
          (left + 1) right ids1
        let ids2 := (pt.2.2.set (left + 1) (pt.2.2.getD pt.2.1 0)).set
          pt.2.1 temp
        if pt.2.1 - left ≤ right - pt.1 + 1 then
          let q1 := quicksort fuel ids2 dists pt.1 right
          quicksort fuel q1.1 q1.2 left (pt.2.1 - 1)
        else
          let q1 := quicksort fuel ids2 dists left (pt.2.1 - 1)
          quicksort fuel q1.1 q1.2 pt.1 right := rfl

/-- A conditional sentinel swap orders the pair of keys, preserves length,
counts and all other positions, and at the two positions either keeps or
exchanges the pair of keys. -/
theorem condSwap_spec (dists : List F) (p q : ℕ) (a : List ℕ)
    (hp : p < a.length) (hq : q < a.length)
    (hnn : ∀ v, dists.getD v (F.fin 0) ≠ F.nan) :
    (condSwap dists p q a).length = a.length ∧
    (∀ x, (condSwap dists p q a).count x = a.count x) ∧
    (∀ k, k ≠ p → k ≠ q → (condSwap dists p q a).getD k 0 = a.getD k 0) ∧
    F.le (keyAt (condSwap dists p q a) dists p)
      (keyAt (condSwap dists p q a) dists q) = true ∧
    ((keyAt (condSwap dists p q a) dists p = keyAt a dists p ∧
      keyAt (condSwap dists p q a) dists q = keyAt a dists q) ∨
     (keyAt (condSwap dists p q a) dists p = keyAt a dists q ∧
      keyAt (condSwap dists p q a) dists q = keyAt a dists p)) := by
  rw [condSwap]
  by_cases hc : F.lt (keyAt a dists q) (keyAt a dists p) = true
  · rw [if_pos hc]
    have hkp : keyAt (swap a p q) dists p = keyAt a dists q := by
      rw [keyAt, keyAt, swap_getD_left _ _ _ hp hq]
    have hkq : keyAt (swap a p q) dists q = keyAt a dists p := by
      rw [keyAt, keyAt, swap_getD_right _ _ _ hp hq]
    refine ⟨swap_length _ _ _, fun x => swap_count _ _ _ hp hq x,
      fun k h1 h2 => swap_getD_other _ _ _ _ h1 h2, ?_, Or.inr ⟨hkp, hkq⟩⟩
    rw [hkp, hkq]
    exact F_le_of_lt _ _ hc
  · rw [if_neg hc]
    refine ⟨rfl, fun x => rfl, fun k h1 h2 => rfl, ?_, Or.inl ⟨rfl, rfl⟩⟩
    exact F_le_of_not_lt _ _ (hnn _) (hnn _) (by simpa using hc)

/-- The median-of-three preparation preserves length, counts and the
positions outside `[left, right]`, and leaves the three sentinel keys at
`left`, `left+1`, `right` in ascending order. -/
theorem medianPrep_spec (dists : List F) (left right : ℕ) (ids : List ℕ)
    (hnn : ∀ v, dists.getD v (F.fin 0) ≠ F.nan)
    (hlr : left + 2 ≤ right) (hrlen : right < ids.length) :
    (medianPrep dists left right ids).length = ids.length ∧
    (∀ x, (medianPrep dists left right ids).count x = ids.count x) ∧
    (∀ k, k < left ∨ right < k →
      (medianPrep dists left right ids).getD k 0 = ids.getD k 0) ∧
    F.le (keyAt (medianPrep dists left right ids) dists left)
      (keyAt (medianPrep dists left right ids) dists (left + 1)) = true ∧
    F.le (keyAt (medianPrep dists left right ids) dists (left + 1))
      (keyAt (medianPrep dists left right ids) dists right) = true := by
  have hm1 : left + 1 ≤ (left + right) / 2 := by omega
  have hm2 : (left + right) / 2 ≤ right - 1 := by omega
  set A := swap ids ((left + right) / 2) (left + 1) with hAdef
  have hAlen : A.length = ids.length := swap_length _ _ _
  obtain ⟨hBlen, hBcount, hBframe, hBle, hBkeys⟩ :=
    condSwap_spec dists left right A (by omega) (by omega) hnn
  set B := condSwap dists left right A with hBdef
  obtain ⟨hClen, hCcount, hCframe, hCle, hCkeys⟩ :=
    condSwap_spec dists (left + 1) right B (by omega) (by omega) hnn
  set C := condSwap dists (left + 1) right B with hCdef
  obtain ⟨hDlen, hDcount, hDframe, hDle, hDkeys⟩ :=
    condSwap_spec dists left (left + 1) C (by omega) (by omega) hnn
  set D := condSwap dists left (left + 1) C with hDdef
  -- key(left+1) survives step B
  have hBmid : keyAt B dists (left + 1) = keyAt A dists (left + 1) := by
    rw [keyAt, keyAt, hBframe (left + 1) (by omega) (by omega)]
  -- key(left) survives step C
  have hCleft : keyAt C dists left = keyAt B dists left := by
    rw [keyAt, keyAt, hCframe left (by omega) (by omega)]
  -- key(right) survives step D
  have hDright : keyAt D dists right = keyAt C dists right := by
    rw [keyAt, keyAt, hDframe right (by omega) (by omega)]
  -- invariant after C: key(left) ≤ key(right)
  have hCouter : F.le (keyAt C dists left) (keyAt C dists right) = true := by
    rw [hCleft]
    rcases hCkeys with ⟨h1, h2⟩ | ⟨h1, h2⟩
    · rw [h2]
      exact hBle
    · rw [h2]
      rw [h1, h2] at hCle
      exact F_le_trans _ _ _ hBle hCle
  have hmed : medianPrep dists left right ids = D := rfl
  rw [hmed]
  refine ⟨by rw [hDlen, hClen, hBlen, hAlen],
    fun x => by rw [hDcount x, hCcount x, hBcount x,
      swap_count _ _ _ (by omega) (by omega) x], ?_, hDle, ?_⟩
  · intro k hk
    rw [hDframe k (by omega) (by omega), hCframe k (by omega) (by omega),
      hBframe k (by omega) (by omega),
      swap_getD_other _ _ _ _ (by omega) (by omega)]
  · rw [hDright]
    rcases hDkeys with ⟨h1, h2⟩ | ⟨h1, h2⟩
    · rw [h2]
      exact hCle
    · rw [h2]
      exact hCouter

/-- Positions agreeing on a window carry the same ascending-key property. -/
theorem AscOn_congr (dists : List F) (a b : List ℕ) (lo hi : ℕ)
    (h : ∀ k, lo ≤ k → k ≤ hi → a.getD k 0 = b.getD k 0)
    (hb : AscOn dists b lo hi) : AscOn dists a lo hi := by
  intro k h1 h2
  rw [keyAt, keyAt, h k h1 (by omega), h (k + 1) (by omega) h2]
  exact hb k h1 h2

/-- The two placement writes after the partition loop (lib.rs:918-919):
`ids[left+1] = ids[j]; ids[j] = temp`.  They preserve length, counts and the
positions outside `[left, right]`, and afterwards every position below `iS`
carries a key at most the pivot while every position from `jS` on carries a
key at least the pivot. -/
theorem placement_spec (dists : List F) (t : F) (left right jS iS : ℕ)
    (idsP : List ℕ) (temp : ℕ) (ids2 : List ℕ)
    (hids2 : ids2 = (idsP.set (left + 1) (idsP.getD jS 0)).set jS temp)
    (hnn : ∀ v, dists.getD v (F.fin 0) ≠ F.nan)
    (hrlen : right < idsP.length)
    (hjb : left + 1 ≤ jS) (hje : jS ≤ right - 1)
    (hji : jS < iS) (hlr : left + 2 ≤ right)
    (htempAt : idsP.getD (left + 1) 0 = temp)
    (htkey : dists.getD temp (F.fin 0) = t)
    (hkeyleft : F.le (keyAt idsP dists left) t = true)
    (hP1 : ∀ m, left + 1 ≤ m → m < iS → F.le (keyAt idsP dists m) t = true)
    (hP2 : ∀ m, jS < m → m ≤ right → F.le t (keyAt idsP dists m) = true) :
    ids2.length = idsP.length ∧
    (∀ x, ids2.count x = idsP.count x) ∧
    (∀ k, k < left ∨ right < k → ids2.getD k 0 = idsP.getD k 0) ∧
    (∀ m, left ≤ m → m < iS → F.le (keyAt ids2 dists m) t = true) ∧
    (∀ m, jS ≤ m → m ≤ right → F.le t (keyAt ids2 dists m) = true) := by
  have htnn : t ≠ F.nan := htkey ▸ hnn temp
  have hl1 : left + 1 < idsP.length := by omega
  have hjlen : jS < idsP.length := by omega
  have hjlen2 : jS < (idsP.set (left + 1) (idsP.getD jS 0)).length := by
    simp
    omega
  have hmidj : (idsP.set (left + 1) (idsP.getD jS 0)).getD jS 0 =
      idsP.getD jS 0 := by
    by_cases h : jS = left + 1
    · rw [h, getD_set_self _ _ _ _ hl1]
    · rw [getD_set_ne _ _ _ _ _ (Ne.symm h)]
  have hat : ∀ k, k ≠ left + 1 → k ≠ jS → ids2.getD k 0 = idsP.getD k 0 := by
    intro k h1 h2
    rw [hids2, getD_set_ne _ _ _ _ _ (Ne.symm h2),
      getD_set_ne _ _ _ _ _ (Ne.symm h1)]
  have hatj : ids2.getD jS 0 = temp := by
    rw [hids2, getD_set_self _ _ _ _ hjlen2]
  refine ⟨by rw [hids2]; simp, ?_, ?_, ?_, ?_⟩
  · intro x
    have c1 := count_set_add idsP (left + 1) (idsP.getD jS 0) hl1 x
    have c2 := count_set_add (idsP.set (left + 1) (idsP.getD jS 0)) jS temp
      hjlen2 x
    rw [htempAt] at c1
    rw [hmidj] at c2
    rw [hids2]
    split_ifs at c1 c2 <;> omega
  · intro k hk
    exact hat k (by omega) (by omega)
  · intro m hm1 hm2
    by_cases hmj : m = jS
    · rw [keyAt, hmj, hatj, htkey]
      exact F_le_refl t htnn
    · by_cases hml : m = left + 1
      · have hjne : jS ≠ left + 1 := fun h => hmj (hml.trans h.symm)
        have : ids2.getD m 0 = idsP.getD jS 0 := by
          rw [hids2, hml, getD_set_ne _ _ _ _ _ hjne,
            getD_set_self _ _ _ _ hl1]
        rw [keyAt, this]
        exact hP1 jS hjb (by omega)
      · rw [keyAt, hat m hml hmj]
        by_cases hm0 : m = left
        · rw [hm0]
          exact hkeyleft
        · exact hP1 m (by omega) hm2
  · intro m hm1 hm2
    by_cases hmj : m = jS
    · rw [keyAt, hmj, hatj, htkey]
      exact F_le_refl t htnn
    · rw [keyAt, hat m (by omega) hmj]
      exact hP2 m (by omega) hm2

/-- Full functional correctness of `quicksort` when no key is NaN: the key
array is returned unchanged, `ids` keeps its length and its multiset of
entries, positions outside `[left, right]` are untouched, and the keys on
`[left, right]` end up in ascending order.  Fuel at least `right - left`
reproduces the Rust recursion. -/
theorem quicksort_spec (dists : List F)
    (hnn : ∀ v, dists.getD v (F.fin 0) ≠ F.nan) :
    ∀ (fuel : ℕ) (ids : List ℕ) (left right : ℕ),
    right < ids.length → right - left ≤ fuel →
    (quicksort fuel ids dists left right).2 = dists ∧
    (quicksort fuel ids dists left right).1.length = ids.length ∧
    (∀ x, (quicksort fuel ids dists left right).1.count x = ids.count x) ∧
    (∀ k, k < left ∨ right < k →
      (quicksort fuel ids dists left right).1.getD k 0 = ids.getD k 0) ∧
    AscOn dists (quicksort fuel ids dists left right).1 left right := by
  intro fuel
  induction fuel with
  | zero =>
      intro ids left right hrlen hfuel
      have hrl : right ≤ left := by omega
      have hq : quicksort 0 ids dists left right = (ids, dists) := by
        rw [quicksort, if_pos hrl]
      rw [hq]
      exact ⟨rfl, rfl, fun x => rfl, fun k hk => rfl,
        fun k hk1 hk2 => absurd hk2 (by omega)⟩
  | succ fuel ih =>
      intro ids left right hrlen hfuel
      rw [quicksort_unfold]
      by_cases h1 : right ≤ left
      · rw [if_pos h1]
        exact ⟨rfl, rfl, fun x => rfl, fun k hk => rfl,
          fun k hk1 hk2 => absurd hk2 (by omega)⟩
      · rw [if_neg h1]
        push_neg at h1
        by_cases h2 : right - left ≤ 20
        · rw [if_pos h2]
          obtain ⟨l1, l2, l3, l4⟩ := insSortLoop_spec dists left
            (right - left) (left + 1) ids (by omega) (by omega)
          refine ⟨rfl, l1, l2, ?_, ?_⟩
          · intro k hk
            exact l3 k (by omega)
          · have hasc0 : AscOn dists ids left (left + 1 - 1) :=
              fun k hk1 hk2 => absurd hk2 (by omega)
            have hl4 := l4 hnn hasc0
            have he : left + 1 + (right - left) - 1 = right := by omega
            rw [he] at hl4
            exact hl4
        · rw [if_neg h2]
          push_neg at h2
          simp only []
          obtain ⟨m1, m2, m3, m4, m5⟩ := medianPrep_spec dists left right
            ids hnn (by omega) hrlen
          set ids1 := medianPrep dists left right ids with hids1
          set temp := ids1.getD (left + 1) 0 with htempdef
          set t := dists.getD temp (F.fin 0) with ht
          have htnn : t ≠ F.nan := hnn temp
          have htkeyeq : keyAt ids1 dists (left + 1) = t := rfl
          have hAinit : ∀ k, left + 1 ≤ k → k ≤ left + 1 →
              F.le (keyAt ids1 dists k) t = true := by
            intro k hk1 hk2
            have hk : k = left + 1 := by omega
            rw [hk, htkeyeq]
            exact F_le_refl t htnn
          have hBinit : ∀ k, right ≤ k → k ≤ right →
              F.le t (keyAt ids1 dists k) = true := by
            intro k hk1 hk2
            have hk : k = right := by omega
            rw [hk, ← htkeyeq]
            exact m5
          obtain ⟨p1, p2, p3, p4, p5, p6, p7, p8, p9, p10⟩ :=
            partitionLoop_spec dists left right t hnn htnn (right - left)
              (left + 1) right ids1 (by omega) (le_refl _) (by omega)
              (le_refl _) (by omega) (by omega) (by omega) htkeyeq
              hAinit hBinit
          set pt := partitionLoop dists left right t (right - left)
            (left + 1) right ids1 with hpt
          set iS := pt.1 with hiS
          set jS := pt.2.1 with hjS
          set idsP := pt.2.2 with hidsP
          have htempAt : idsP.getD (left + 1) 0 = temp := by
            rw [p3 (left + 1) (Or.inl (le_refl _)), htempdef]
          have hkeyleft : F.le (keyAt idsP dists left) t = true := by
            have hfr : keyAt idsP dists left = keyAt ids1 dists left := by
              rw [keyAt, keyAt, p3 left (Or.inl (by omega))]
            rw [hfr, ← htkeyeq]
            exact m4
          set ids2 := (idsP.set (left + 1) (idsP.getD jS 0)).set jS temp
            with hids2
          obtain ⟨q1, q2, q3, q4, q5⟩ := placement_spec dists t left right
            jS iS idsP temp ids2 hids2 hnn (by omega) p5 p6 p4 (by omega)
            htempAt ht.symm hkeyleft p9 p10
          by_cases hbr : jS - left ≤ right - iS + 1
          · rw [if_pos hbr]
            obtain ⟨a1, a2, a3, a4, a5⟩ := ih ids2 iS right (by omega)
              (by omega)
            set q := quicksort fuel ids2 dists iS right with hq
            rw [a1]
            obtain ⟨b1, b2, b3, b4, b5⟩ := ih q.1 left (jS - 1) (by omega)
              (by omega)
            set res := quicksort fuel q.1 dists left (jS - 1) with hres
            have hreslen : res.1.length = ids.length := by omega
            refine ⟨b1, hreslen, fun x => by rw [b3 x, a3 x, q2 x, p2 x,
              m2 x], ?_, ?_⟩
            · intro k hk
              rw [b4 k (by omega), a4 k (by omega), q3 k hk,
                p3 k (by omega), m3 k hk]
            · have hAl : AscOn dists res.1 left (jS - 1) := b5
              have hAr : AscOn dists res.1 iS right :=
                AscOn_congr dists res.1 q.1 iS right
                  (fun k hk1 hk2 => b4 k (Or.inr (by omega))) a5
              have hg1a := count_frame_transfer res.1 q.1 left (jS - 1)
                (fun v => F.le (dists.getD v (F.fin 0)) t = true) b2 b3 b4
                (fun k hk1 hk2 hk3 => by
                  rw [a4 k (Or.inl (by omega))]
                  exact q4 k hk1 (by omega))
              have hG1 : ∀ m, left ≤ m → m < iS →
                  F.le (keyAt res.1 dists m) t = true := by
                intro m hm1 hm2
                by_cases hmj : m ≤ jS - 1
                · exact hg1a m hm1 hmj (by omega)
                · rw [keyAt, b4 m (by omega), a4 m (Or.inl hm2)]
                  exact q4 m hm1 hm2
              have hg2a := count_frame_transfer q.1 ids2 iS right
                (fun v => F.le t (dists.getD v (F.fin 0)) = true) a2 a3 a4
                (fun k hk1 hk2 hk3 => q5 k (by omega) hk2)
              have hG2 : ∀ m, jS ≤ m → m ≤ right →
                  F.le t (keyAt res.1 dists m) = true := by
                intro m hm1 hm2
                have hmq : res.1.getD m 0 = q.1.getD m 0 :=
                  b4 m (Or.inr (by omega))
                by_cases hmi : m < iS
                · rw [keyAt, hmq, a4 m (Or.inl hmi)]
                  exact q5 m hm1 hm2
                · rw [keyAt, hmq]
                  exact hg2a m (by omega) hm2 (by omega)
              intro k hk1 hk2
              by_cases hc1 : k + 1 ≤ jS - 1
              · exact hAl k hk1 hc1
              · by_cases hc2 : iS ≤ k
                · exact hAr k hc2 hk2
                · exact F_le_trans _ t _ (hG1 k hk1 (by omega))
                    (hG2 (k + 1) (by omega) hk2)
          · rw [if_neg hbr]
            obtain ⟨a1, a2, a3, a4, a5⟩ := ih ids2 left (jS - 1) (by omega)
              (by omega)
            set q := quicksort fuel ids2 dists left (jS - 1) with hq
            rw [a1]
            obtain ⟨b1, b2, b3, b4, b5⟩ := ih q.1 iS right (by omega)
              (by omega)
            set res := quicksort fuel q.1 dists iS right with hres
            have hreslen : res.1.length = ids.length := by omega
            refine ⟨b1, hreslen, fun x => by rw [b3 x, a3 x, q2 x, p2 x,
              m2 x], ?_, ?_⟩
            · intro k hk
              rw [b4 k (by omega), a4 k (by omega), q3 k hk,
                p3 k (by omega), m3 k hk]
            · have hAr : AscOn dists res.1 iS right := b5
              have hAl : AscOn dists res.1 left (jS - 1) :=
                AscOn_congr dists res.1 q.1 left (jS - 1)
                  (fun k hk1 hk2 => b4 k (Or.inl (by omega))) a5
              have hg1a := count_frame_transfer q.1 ids2 left (jS - 1)
                (fun v => F.le (dists.getD v (F.fin 0)) t = true) a2 a3 a4
                (fun k hk1 hk2 hk3 => q4 k hk1 (by omega))
              have hG1 : ∀ m, left ≤ m → m < iS →
                  F.le (keyAt res.1 dists m) t = true := by
                intro m hm1 hm2
                have hmq : res.1.getD m 0 = q.1.getD m 0 :=
                  b4 m (Or.inl hm2)
                by_cases hmj : m ≤ jS - 1
                · rw [keyAt, hmq]
                  exact hg1a m hm1 hmj (by omega)
                · rw [keyAt, hmq, a4 m (Or.inr (by omega))]
                  exact q4 m hm1 hm2
              have hg2a := count_frame_transfer res.1 q.1 iS right
                (fun v => F.le t (dists.getD v (F.fin 0)) = true) b2 b3 b4
                (fun k hk1 hk2 hk3 => by
                  rw [a4 k (Or.inr (by omega))]
                  exact q5 k (by omega) hk2)
              have hG2 : ∀ m, jS ≤ m → m ≤ right →
                  F.le t (keyAt res.1 dists m) = true := by
                intro m hm1 hm2
                by_cases hmi : m < iS
                · rw [keyAt, b4 m (Or.inl hmi), a4 m (Or.inr (by omega))]
                  exact q5 m hm1 hm2
                · exact hg2a m (by omega) hm2 (by omega)
              intro k hk1 hk2
              by_cases hc1 : k + 1 ≤ jS - 1
              · exact hAl k hk1 hc1
              · by_cases hc2 : iS ≤ k
                · exact hAr k hc2 hk2
                · exact F_le_trans _ t _ (hG1 k hk1 (by omega))
                    (hG2 (k + 1) (by omega) hk2)

/-- C7: counterexample to the original claim, which quantifies over every
key array.  With `dists = [NaN, 0]` the IEEE comparison `NaN > 0` is false,
so the insertion sort of `quicksort` moves nothing: `ids` stays `[0, 1]`
and the keys `dists[ids[0]] = NaN`, `dists[ids[1]] = 0` are not in
ascending order (`NaN <= 0` is false).  The claim fails for key arrays
containing NaN. -/
theorem C7_nan_counterexample :
    (quicksort 1 [0, 1] [F.nan, F.fin 0] 0 1).1 = [0, 1] ∧
    F.le (keyAt (quicksort 1 [0, 1] [F.nan, F.fin 0] 0 1).1
      [F.nan, F.fin 0] 0)
      (keyAt (quicksort 1 [0, 1] [F.nan, F.fin 0] 0 1).1
        [F.nan, F.fin 0] 1) = false := by decide

/-- C7 (amended): for every key array `dists` whose entries are not NaN,
every `ids`, and every range `left <= right < ids.length`, `quicksort`
rearranges `ids[left..=right]` so that the keys `dists[ids[k]]` are
ascending on `[left, right]`, `ids` keeps its multiset of entries (it stays
a permutation of the same elements), and entries outside `[left, right]`
are unchanged.  Any fuel at least `right - left` reproduces the Rust
recursion. -/
theorem C7_quicksort_sorts (dists : List F) (fuel : ℕ) (ids : List ℕ)
    (left right : ℕ) (hlen : right < ids.length)
    (hfuel : right - left ≤ fuel)
    (hnn : ∀ v, dists.getD v (F.fin 0) ≠ F.nan) :
    (∀ x, (quicksort fuel ids dists left right).1.count x = ids.count x) ∧
    (∀ k, k < left ∨ right < k →
      (quicksort fuel ids dists left right).1.getD k 0 = ids.getD k 0) ∧
    AscOn dists (quicksort fuel ids dists left right).1 left right := by
  obtain ⟨_, _, h3, h4, h5⟩ := quicksort_spec dists hnn fuel ids left right
    hlen hfuel
  exact ⟨h3, h4, h5⟩

/-- Witness for C7: a concrete run, `ids = [0, 1]`, keys `[3, 1]`,
range `[0, 1]`, discharging every hypothesis of the theorem. -/
theorem C7_quicksort_sorts_witness :
    (1 : ℕ) < 2 ∧ (1 : ℕ) - 0 ≤ 1 ∧
    ((∀ x, (quicksort 1 [0, 1] [F.fin 3, F.fin 1] 0 1).1.count x =
      [0, 1].count x) ∧
    (∀ k, k < 0 ∨ 1 < k →
      (quicksort 1 [0, 1] [F.fin 3, F.fin 1] 0 1).1.getD k 0 =
        [0, 1].getD k 0) ∧
    AscOn [F.fin 3, F.fin 1]
      (quicksort 1 [0, 1] [F.fin 3, F.fin 1] 0 1).1 0 1) :=
  ⟨by decide, by decide,
    C7_quicksort_sorts [F.fin 3, F.fin 1] 1 [0, 1] 0 1 (by decide)
      (by decide)
      (fun v => by rcases v with _ | _ | v <;> simp [List.getD])⟩

end DRS
